import Mathlib

/-
Verification of the RePair random-access decoder (src/random_access.py and
src/visualize.py).

The Python program is shallowly embedded as follows:
- a binary input file is a `List Nat` of byte values;
- a Python `dict` keyed by symbol ids is a `List (Nat × α)` of bindings in
  insertion order, looked up by `dget`, which returns the latest binding for a
  key (Python assignment overwrites earlier bindings);
- a grammar dict value is a `GEntry`: `bytes b` for a one-byte bytes object
  (a terminal's character) and `pair s1 s2` for a non-terminal rule tuple;
- a raised exception is an `Except.error` carrying the message (a Python
  `KeyError` from a missing dict lookup is the message "KeyError");
- the unbounded `while True` loop of `random_access` is run on explicit fuel,
  returning `RAResult.outOfFuel` when the fuel is exhausted.
-/

/-- Lookup in a Python-style dict modelled as a binding list: the most recent
binding for the key wins. -/
def dget {α : Type} : List (Nat × α) → Nat → Option α
  | [], _ => none
  | (k, v) :: rest, key =>
    match dget rest key with
    | some v' => some v'
    | none => if k = key then some v else none

/-- A value stored in a grammar dict: a one-byte bytes object for a terminal,
or the tuple of the two child symbol ids for a non-terminal rule. -/
inductive GEntry where
  | bytes (b : Nat)
  | pair (s1 s2 : Nat)
  deriving DecidableEq, Repr

/-- The pair view of a grammar at a key: `some (a, b)` exactly when the dict
holds a tuple there (the `isinstance(grammar[s], tuple)` test in the code). -/
def pview (g : List (Nat × GEntry)) (s : Nat) : Option (Nat × Nat) :=
  match dget g s with
  | some (.pair a b) => some (a, b)
  | _ => none

/-- Little-endian interpretation of a byte list, as `int.from_bytes(_, 'little')`. -/
def u32of : List Nat → Nat
  | [] => 0
  | b :: rest => b + 256 * u32of rest

/-- The four little-endian bytes of a value below `2 ^ 32`. -/
def u32bytes (n : Nat) : List Nat :=
  [n % 256, n / 256 % 256, n / 65536 % 256, n / 16777216 % 256]

/-- The `(child1, child2)` records parsed from the rules-byte region, 8 bytes
per record, each child a 4-byte little-endian integer (the unpacking loop of
both grammar loaders). The loaders always pass a region whose length is an
exact multiple of 8. -/
def parsePairs : List Nat → List (Nat × Nat)
  | b0 :: b1 :: b2 :: b3 :: b4 :: b5 :: b6 :: b7 :: rest =>
    (u32of [b0, b1, b2, b3], u32of [b4, b5, b6, b7]) :: parsePairs rest
  | _ => []

/-- The terminal bindings `grammar[i] = char_map[i:i+1]` for `i in range(n)`
(Layout A loader), in insertion order. -/
def termEntriesA (char_map : List Nat) : Nat → List (Nat × GEntry)
  | 0 => []
  | n + 1 => termEntriesA char_map n ++ [(n, .bytes (char_map.getD n 0))]

/-- The terminal bindings `lengths[i] = 1` for `i in range(n)` (both loaders),
in insertion order. -/
def termLens : Nat → List (Nat × Nat)
  | 0 => []
  | n + 1 => termLens n ++ [(n, 1)]

/-- The shared rule loop of both grammar loaders: for each record, store
`grammar[rule_id] = (s1, s2)` and `lengths[rule_id] = lengths[s1] + lengths[s2]`;
a missing child length raises a Python `KeyError`. -/
def buildRulesLoop : Nat → List (Nat × Nat) → List (Nat × GEntry) → List (Nat × Nat) →
    Except String (List (Nat × GEntry) × List (Nat × Nat))
  | _, [], grammar, lengths => .ok (grammar, lengths)
  | rule_id, (s1, s2) :: ps, grammar, lengths =>
    match dget lengths s1, dget lengths s2 with
    | some n1, some n2 =>
      buildRulesLoop (rule_id + 1) ps (grammar ++ [(rule_id, .pair s1 s2)])
        (lengths ++ [(rule_id, n1 + n2)])
    | _, _ => .error "KeyError"

/-- The alphabet size declared by a rules file: the little-endian value of its
first four bytes. -/
def fileAlpha (file : List Nat) : Nat := u32of (file.take 4)

/-- Layout A loader (`load_original_repair_grammar_with_lengths`): 4-byte
alphabet size, `alpha` character-map bytes, then 8-byte rule records. The
`os.path.exists` check concerns the file system and is outside the embedding;
the file content itself is the byte list. -/
def load_original_repair_grammar_with_lengths (file : List Nat) :
    Except String (List (Nat × GEntry) × List (Nat × Nat)) :=
  let rules_size := file.length
  let alpha_bytes := file.take 4
  if alpha_bytes.length < 4 then
    .error "Error: Cannot read alphabet from rules file"
  else
    let alpha := u32of alpha_bytes
    let char_map := (file.drop 4).take alpha
    if char_map.length < alpha then
      .error "Error: Could not read character map from rules file"
    else
      let num_rules := (rules_size - 4 - alpha) / 8
      let rules_bytes := ((file.drop 4).drop alpha).take (num_rules * 8)
      if rules_bytes.length < num_rules * 8 then
        .error "Error: Truncated rules data in rules file"
      else
        buildRulesLoop alpha (parsePairs rules_bytes) (termEntriesA char_map alpha)
          (termLens alpha)

/-- Layout B loader (`load_pfp_repair_grammar_with_lengths`): 4-byte alphabet
size, then 8-byte rule records; terminals are not stored in the grammar dict. -/
def load_pfp_repair_grammar_with_lengths (file : List Nat) :
    Except String (List (Nat × GEntry) × List (Nat × Nat)) :=
  let rules_size := file.length
  let alpha_bytes := file.take 4
  if alpha_bytes.length < 4 then
    .error "Error: Cannot read alphabet from rules file"
  else
    let alpha := u32of alpha_bytes
    let num_rules := (rules_size - 4) / 8
    let rules_bytes := (file.drop 4).take (num_rules * 8)
    if rules_bytes.length < num_rules * 8 then
      .error "Error: Truncated rules data in rules file"
    else
      buildRulesLoop alpha (parsePairs rules_bytes) [] (termLens alpha)

/-- The read loop of `load_compressed_str`: `count` attempts to read a 4-byte
little-endian integer from the remaining bytes. -/
def loadStrLoop : Nat → List Nat → Except String (List Nat)
  | 0, _ => .ok []
  | count + 1, bytes =>
    let int_bytes := bytes.take 4
    if int_bytes.length < 4 then
      .error "Error: Truncated file, could not read full integer."
    else
      match loadStrLoop count (bytes.drop 4) with
      | .ok rest => .ok (u32of int_bytes :: rest)
      | .error e => .error e

/-- `load_compressed_str`: reads `fileSize // 4` little-endian integers. -/
def load_compressed_str (file : List Nat) : Except String (List Nat) :=
  loadStrLoop (file.length / 4) file

/-- Fuel-driven naive expansion of a symbol (reference semantics, from the
spec: replace every non-terminal by its children until only terminal-like
symbols remain). The guard `a < s ∧ b < s` is the acyclicity invariant under
which the recursion is meaningful; a fuel of `s` always suffices because
children ids strictly decrease. -/
def expandFuel (g : List (Nat × GEntry)) : Nat → Nat → List Nat
  | 0, s => [s]
  | fuel + 1, s =>
    match dget g s with
    | some (.pair a b) =>
      if a < s ∧ b < s then expandFuel g fuel a ++ expandFuel g fuel b else [s]
    | _ => [s]

/-- Naive recursive expansion of a symbol into the list of terminal ids it
derives (the spec's "naive recursive substitution" reference semantics). -/
def naiveExpand (g : List (Nat × GEntry)) (s : Nat) : List Nat := expandFuel g s s

/-- Concatenated expansion of a symbol sequence: the original text, as ids. -/
def expandSeq (g : List (Nat × GEntry)) : List Nat → List Nat
  | [] => []
  | s :: rest => naiveExpand g s ++ expandSeq g rest

/-- Outcome of one left-to-right pass of the `for` loop in `random_access`. -/
inductive ScanStep where
  | ret (t : Nat)
  | descend (a b : Nat) (position : Nat)
  | fallthrough (position : Nat)
  | keyErr
  deriving DecidableEq, Repr

/-- One pass of the `for symbol_id in current_sequence` loop of
`random_access`: subtract lengths until the containing symbol is found, then
either return a terminal-like id, or break to the symbol's two children;
reaching the end of the sequence falls through to the enclosing `while True`.
A missing length is a Python `KeyError`. -/
def scanSeq (grammar : List (Nat × GEntry)) (lengths : List (Nat × Nat)) :
    List Nat → Nat → ScanStep
  | [], position => .fallthrough position
  | symbol_id :: rest, position =>
    match dget lengths symbol_id with
    | none => .keyErr
    | some symbol_len =>
      if position < symbol_len then
        match dget grammar symbol_id with
        | some (.pair a b) => .descend a b position
        | _ => .ret symbol_id
      else
        scanSeq grammar lengths rest (position - symbol_len)

/-- Result of running `random_access` with bounded fuel for the
`while True` loop. -/
inductive RAResult where
  | found (t : Nat)
  | keyError
  | outOfFuel
  deriving DecidableEq, Repr

/-- The `while True` loop of `random_access`, spending one unit of fuel per
restart of the `for` scan: a `break` restarts it on the two children, a
fall-through restarts it on the same sequence with the reduced position. -/
def raGo (grammar : List (Nat × GEntry)) (lengths : List (Nat × Nat)) :
    Nat → List Nat → Nat → RAResult
  | 0, _, _ => .outOfFuel
  | fuel + 1, current_sequence, position =>
    match scanSeq grammar lengths current_sequence position with
    | .ret t => .found t
    | .keyErr => .keyError
    | .descend a b q => raGo grammar lengths fuel [a, b] q
    | .fallthrough q => raGo grammar lengths fuel current_sequence q

/-- `random_access(top_level_sequence, grammar, lengths, position)`, run with
explicit fuel for the unbounded loop. -/
def random_access (top_level_sequence : List Nat) (grammar : List (Nat × GEntry))
    (lengths : List (Nat × Nat)) (position fuel : Nat) : RAResult :=
  raGo grammar lengths fuel top_level_sequence position

/-- Fuel-driven form of the memoized `get_max_depth` inside
`calculate_grammar_depth_stats`. Memoization only caches the value of this
pure recursion, so the cache is dropped in the embedding. The guard
`a < s ∧ b < s` is the acyclicity invariant; under it a fuel of `s` suffices. -/
def maxDepthFuel (grammar : List (Nat × GEntry)) : Nat → Nat → Nat
  | 0, _ => 0
  | fuel + 1, s =>
    match dget grammar s with
    | some (.pair a b) =>
      if a < s ∧ b < s then 1 + max (maxDepthFuel grammar fuel a) (maxDepthFuel grammar fuel b)
      else 0
    | _ => 0

/-- `get_max_depth`: 0 for a terminal-like symbol, otherwise one more than the
larger child depth. -/
def get_max_depth (grammar : List (Nat × GEntry)) (s : Nat) : Nat :=
  maxDepthFuel grammar s s

/-- Fuel-driven form of the memoized `get_leaf_depth_sum` inside
`calculate_grammar_depth_stats`. A missing child length would raise `KeyError`
in Python; the embedding reads it with default 0, and every theorem about this
function supplies the lengths explicitly. -/
def leafDepthSumFuel (grammar : List (Nat × GEntry)) (lengths : List (Nat × Nat)) :
    Nat → Nat → Nat
  | 0, _ => 0
  | fuel + 1, s =>
    match dget grammar s with
    | some (.pair a b) =>
      if a < s ∧ b < s then
        leafDepthSumFuel grammar lengths fuel a + leafDepthSumFuel grammar lengths fuel b +
          (dget lengths a).getD 0 + (dget lengths b).getD 0
      else 0
    | _ => 0

/-- `get_leaf_depth_sum`: 0 for a terminal-like symbol, otherwise the children's
sums plus both children's expansion lengths. -/
def get_leaf_depth_sum (grammar : List (Nat × GEntry)) (lengths : List (Nat × Nat))
    (s : Nat) : Nat :=
  leafDepthSumFuel grammar lengths s s

/-- `calculate_grammar_depth_stats`: the maximum depth over the top-level
forest, the total leaf-depth sum, and the average leaf depth it prints
(exact division, 0 when the uncompressed size is 0). -/
def calculate_grammar_depth_stats (grammar : List (Nat × GEntry))
    (top_level_sequence : List Nat) (lengths : List (Nat × Nat))
    (uncompressed_size : Nat) : Nat × Nat × ℚ :=
  let max_overall_depth :=
    top_level_sequence.foldl (fun m s => max m (get_max_depth grammar s)) 0
  let total_leaf_depth_sum :=
    top_level_sequence.foldl (fun t s => t + get_leaf_depth_sum grammar lengths s) 0
  let average_depth : ℚ :=
    if uncompressed_size > 0 then (total_leaf_depth_sum : ℚ) / (uncompressed_size : ℚ)
    else 0
  (max_overall_depth, total_leaf_depth_sum, average_depth)

/-- Python `str.isprintable` on the 256 single characters `chr(0)..chr(255)`:
false for C0 controls and DEL, true for printable ASCII including space,
false for C1 controls (128-159), the no-break space (160) and the soft
hyphen (173), true for the rest of Latin-1. -/
def pyIsPrintable (c : Nat) : Bool :=
  if c < 32 then false
  else if c ≤ 126 then true
  else if c ≤ 160 then false
  else if c = 173 then false
  else true

/-- The four shapes of formatted symbol output the program writes. -/
inductive FormattedSymbol where
  | quoted (c : Nat)
  | byteTag (id : Nat)
  | bare (id : Nat)
  | unknown (id : Nat)
  deriving DecidableEq, Repr

/-- `format_original_repair_symbol`: a bytes value decodes as ASCII only below
128; printable characters are quoted, the rest print as `byte(id)`; tuples
print the bare id; anything else prints `?id?`. -/
def format_original_repair_symbol (symbol_id : Nat) (grammar : List (Nat × GEntry)) :
    FormattedSymbol :=
  match dget grammar symbol_id with
  | some (.bytes b) =>
    if b < 128 then
      if pyIsPrintable b then .quoted b else .byteTag symbol_id
    else .byteTag symbol_id
  | some (.pair _ _) => .bare symbol_id
  | none => .unknown symbol_id

/-- `format_pfp_repair_symbol`: every id below 256 is treated as a character;
ids of 256 and above print the bare id when the grammar holds a tuple and
`?id?` otherwise. -/
def format_pfp_repair_symbol (symbol_id : Nat) (grammar : List (Nat × GEntry)) :
    FormattedSymbol :=
  if symbol_id < 256 then
    if pyIsPrintable symbol_id then .quoted symbol_id else .byteTag symbol_id
  else
    match dget grammar symbol_id with
    | some (.pair _ _) => .bare symbol_id
    | _ => .unknown symbol_id

/-- Boolean acyclicity check for one grammar binding: a stored rule's
children must have smaller ids. -/
def entryWF (p : Nat × GEntry) : Bool :=
  match p.2 with
  | GEntry.pair a b => decide (a < p.1 ∧ b < p.1)
  | GEntry.bytes _ => true

/-- Acyclicity of a grammar dict, stated over its bindings (decidable on
concrete grammars). -/
def WFgram (g : List (Nat × GEntry)) : Prop :=
  ∀ p ∈ g, entryWF p = true

instance (g : List (Nat × GEntry)) : Decidable (WFgram g) :=
  List.decidableBAll _ g

/-- Acyclicity read through lookups. -/
def WFdget (g : List (Nat × GEntry)) : Prop :=
  ∀ s a b, dget g s = some (.pair a b) → a < s ∧ b < s

/-- Boolean consistency check for one lengths binding against the grammar: a
key holding a rule maps to the sum of its children's lengths (both present),
any other key maps to 1. -/
def lensEntryOK (g : List (Nat × GEntry)) (l : List (Nat × Nat)) (p : Nat × Nat) : Bool :=
  match dget g p.1 with
  | some (GEntry.pair a b) =>
    match dget l a, dget l b with
    | some n1, some n2 => decide (dget l p.1 = some (n1 + n2))
    | _, _ => false
  | _ => decide (dget l p.1 = some 1)

/-- Consistency of a lengths dict with a grammar, stated over the bindings of
the lengths dict (decidable on concrete dicts). -/
def ConsistentLens (g : List (Nat × GEntry)) (l : List (Nat × Nat)) : Prop :=
  ∀ p ∈ l, lensEntryOK g l p = true

instance (g : List (Nat × GEntry)) (l : List (Nat × Nat)) :
    Decidable (ConsistentLens g l) :=
  List.decidableBAll _ l

/-- Every id of the sequence is a loaded symbol of the lengths dict
(decidable on concrete inputs). -/
def SeqCovered (l : List (Nat × Nat)) (seq : List Nat) : Prop :=
  ∀ s ∈ seq, (dget l s).isSome = true

instance (l : List (Nat × Nat)) (seq : List Nat) : Decidable (SeqCovered l seq) :=
  List.decidableBAll _ seq

/-- The lengths entry of a symbol is exactly the length of its naive
expansion. -/
def LenExact (g : List (Nat × GEntry)) (l : List (Nat × Nat)) (s : Nat) : Prop :=
  dget l s = some (naiveExpand g s).length

/-- Every stored rule whose own length is loaded has children carrying exact
lengths. -/
def PairClosedExact (g : List (Nat × GEntry)) (l : List (Nat × Nat)) : Prop :=
  ∀ s a b, dget g s = some (.pair a b) → (dget l s).isSome = true →
    LenExact g l a ∧ LenExact g l b

/-- `uncompressed_size` as the main program computes it: the sum of the
lengths entries over the top-level sequence. -/
def uncompressedSize (l : List (Nat × Nat)) : List Nat → Nat
  | [] => 0
  | s :: rest => (dget l s).getD 0 + uncompressedSize l rest

/-- An upper bound for the symbol ids of a sequence. -/
def maxList : List Nat → Nat
  | [] => 0
  | s :: rest => max s (maxList rest)

/-- What a scan pass may produce on an in-range position: the terminal at the
position, or a break to the containing rule's children with the decoded
character preserved. -/
def ScanOK (g : List (Nat × GEntry)) (l : List (Nat × Nat)) (seq : List Nat)
    (pos : Nat) : ScanStep → Prop
  | .ret t => t ∈ seq ∧ pview g t = none ∧ (expandSeq g seq).getD pos 0 = t
  | .descend a b q => ∃ t, t ∈ seq ∧ dget g t = some (.pair a b) ∧
      (dget l t).isSome = true ∧ q < (naiveExpand g t).length ∧
      (expandSeq g seq).getD pos 0 = (naiveExpand g t).getD q 0
  | .fallthrough _ => False
  | .keyErr => False

/-- Invariant of the rule-building loop, indexed by the alphabet size and the
next rule id: all keys are below the next rule id, every recorded length is
the exact expansion length, every stored rule has recorded children with
smaller ids, terminals map to length 1, every loaded id at or above the
alphabet is a stored rule, bytes entries sit below the alphabet, and a stored
rule at or above the alphabet never hides behind a bytes entry. -/
structure LoadInv (alpha rule_id : Nat) (g : List (Nat × GEntry)) (l : List (Nat × Nat)) :
    Prop where
  alpha_le : alpha ≤ rule_id
  ldom : ∀ s, (dget l s).isSome = true → s < rule_id
  gdom : ∀ s e, dget g s = some e → s < rule_id
  lexact : ∀ s, (dget l s).isSome = true → dget l s = some (naiveExpand g s).length
  gpair : ∀ s a b, dget g s = some (.pair a b) →
    (dget l a).isSome = true ∧ (dget l b).isSome = true ∧ a < s ∧ b < s ∧
      (dget l s).isSome = true
  lterm : ∀ s, s < alpha → dget l s = some 1
  lrule : ∀ s, (dget l s).isSome = true → alpha ≤ s → ∃ a b, dget g s = some (.pair a b)
  gbyte : ∀ s b, dget g s = some (.bytes b) → s < alpha
  glow : ∀ s e, dget g s = some e → (∃ b, e = .bytes b) ∨ alpha ≤ s

/-- Witness data: a one-terminal Layout A rules file with one rule, and the
grammar and lengths dicts it loads to. -/
def wfileA : List Nat := [1, 0, 0, 0, 97, 0, 0, 0, 0, 0, 0, 0, 0]

def wgA : List (Nat × GEntry) := [(0, GEntry.bytes 97), (1, GEntry.pair 0 0)]

def wlA : List (Nat × Nat) := [(0, 1), (1, 2)]

/-- Witness data: the Layout B rules file with the same alphabet size and the
same single rule record, and the grammar and lengths dicts it loads to. -/
def wfileB : List Nat := [1, 0, 0, 0, 0, 0, 0, 0, 0, 0, 0, 0]

def wgB : List (Nat × GEntry) := [(1, GEntry.pair 0 0)]

def wlB : List (Nat × Nat) := [(0, 1), (1, 2)]

/-- A Layout A rules file for alphabet size `alpha` whose character map sends
terminal id `i` to byte value `i`, followed by the given record-region bytes. -/
def mkFileA (alpha : Nat) (region : List Nat) : List Nat :=
  u32bytes alpha ++ (List.range alpha ++ region)

/-- The Layout B rules file with the same alphabet size and the same
record-region bytes. -/
def mkFileB (alpha : Nat) (region : List Nat) : List Nat :=
  u32bytes alpha ++ region

/-- Witness data for layout equivalence: an 8-byte all-zero record region
(one rule `(0, 0)`), and the Layout A grammar it loads to under the identity
character map. -/
def wregion : List Nat := [0, 0, 0, 0, 0, 0, 0, 0]

def wgA0 : List (Nat × GEntry) := [(0, GEntry.bytes 0), (1, GEntry.pair 0 0)]

theorem dget_nil {α : Type} (k : Nat) : dget ([] : List (Nat × α)) k = none := rfl

theorem dget_singleton {α : Type} (k key : Nat) (v : α) :
    dget [(k, v)] key = if k = key then some v else none := rfl

theorem dget_append_of_some {α : Type} {d e : List (Nat × α)} {k : Nat} {v : α}
    (h : dget e k = some v) : dget (d ++ e) k = some v := by
  induction d with
  | nil => simpa using h
  | cons p d ih =>
    obtain ⟨k', v'⟩ := p
    show (match dget (d ++ e) k with
      | some v' => some v'
      | none => if k' = k then some v' else none) = some v
    rw [ih]

theorem dget_append_of_none {α : Type} {e : List (Nat × α)} {k : Nat}
    (h : dget e k = none) (d : List (Nat × α)) : dget (d ++ e) k = dget d k := by
  induction d with
  | nil => simpa using h
  | cons p d ih =>
    obtain ⟨k', v'⟩ := p
    show (match dget (d ++ e) k with
      | some v' => some v'
      | none => if k' = k then some v' else none) =
      (match dget d k with
      | some v' => some v'
      | none => if k' = k then some v' else none)
    rw [ih]

/-- Appending a single fresh binding: the dict afterwards answers the new key
with the new value and every other key as before. -/
theorem dget_append_single {α : Type} (d : List (Nat × α)) (k key : Nat) (v : α) :
    dget (d ++ [(k, v)]) key = if k = key then some v else dget d key := by
  by_cases h : k = key
  · subst h
    exact (if_pos rfl) ▸ dget_append_of_some (by simp [dget_singleton])
  · rw [if_neg h, dget_append_of_none (by simp [dget_singleton, h])]

theorem dget_mem {α : Type} {d : List (Nat × α)} {k : Nat} {v : α}
    (h : dget d k = some v) : (k, v) ∈ d := by
  induction d with
  | nil => simp [dget] at h
  | cons p d ih =>
    obtain ⟨k', v'⟩ := p
    revert h
    show (match dget d k with
      | some v' => some v'
      | none => if k' = k then some v' else none) = some v → _
    cases hd : dget d k with
    | some w => intro h; cases h; exact List.mem_cons_of_mem _ (ih hd)
    | none =>
      intro h
      by_cases hk : k' = k
      · rw [if_pos hk] at h
        cases h
        exact hk ▸ List.mem_cons_self _ _
      · rw [if_neg hk] at h
        cases h

theorem dget_eq_none_of_keys_lt {α : Type} {d : List (Nat × α)} {r : Nat}
    (h : ∀ s v, dget d s = some v → s < r) : dget d r = none := by
  cases hd : dget d r with
  | none => rfl
  | some v => exact absurd (h r v hd) (lt_irrefl r)

theorem pview_eq_some {g : List (Nat × GEntry)} {s a b : Nat} :
    pview g s = some (a, b) ↔ dget g s = some (.pair a b) := by
  unfold pview
  cases h : dget g s with
  | none => simp
  | some e => cases e <;> simp_all

theorem u32of_u32bytes {n : Nat} (h : n < 4294967296) : u32of (u32bytes n) = n := by
  simp only [u32bytes, u32of]
  omega

theorem expandFuel_zero (g : List (Nat × GEntry)) (s : Nat) :
    expandFuel g 0 s = [s] := rfl

theorem expandFuel_succ (g : List (Nat × GEntry)) (f s : Nat) :
    expandFuel g (f + 1) s =
      match dget g s with
      | some (.pair a b) =>
        if a < s ∧ b < s then expandFuel g f a ++ expandFuel g f b else [s]
      | _ => [s] := rfl

theorem expandFuel_stable (g : List (Nat × GEntry)) :
    ∀ f1 f2 s, s ≤ f1 → s ≤ f2 → expandFuel g f1 s = expandFuel g f2 s := by
  intro f1
  induction f1 with
  | zero =>
    intro f2 s h1 h2
    interval_cases s
    cases f2 with
    | zero => rfl
    | succ f =>
      rw [expandFuel_zero, expandFuel_succ]
      cases dget g 0 with
      | none => rfl
      | some e =>
        cases e with
        | bytes b => rfl
        | pair a b =>
          dsimp only
          rw [if_neg (by omega)]
  | succ f1 ih =>
    intro f2 s h1 h2
    cases f2 with
    | zero =>
      interval_cases s
      rw [expandFuel_zero, expandFuel_succ]
      cases dget g 0 with
      | none => rfl
      | some e =>
        cases e with
        | bytes b => rfl
        | pair a b =>
          dsimp only
          rw [if_neg (by omega)]
    | succ f2 =>
      rw [expandFuel_succ, expandFuel_succ]
      cases dget g s with
      | none => rfl
      | some e =>
        cases e with
        | bytes b => rfl
        | pair a b =>
          dsimp only
          by_cases hab : a < s ∧ b < s
          · rw [if_pos hab, if_pos hab, ih f2 a (by omega) (by omega),
              ih f2 b (by omega) (by omega)]
          · rw [if_neg hab, if_neg hab]

/-- The recursive unfolding of `naiveExpand`. -/
theorem naiveExpand_eq (g : List (Nat × GEntry)) (s : Nat) :
    naiveExpand g s =
      match dget g s with
      | some (.pair a b) =>
        if a < s ∧ b < s then naiveExpand g a ++ naiveExpand g b else [s]
      | _ => [s] := by
  show expandFuel g s s = _
  cases s with
  | zero =>
    rw [expandFuel_zero]
    cases dget g 0 with
    | none => rfl
    | some e =>
      cases e with
      | bytes b => rfl
      | pair a b =>
        dsimp only
        rw [if_neg (by omega)]
  | succ n =>
    rw [expandFuel_succ]
    cases dget g (n + 1) with
    | none => rfl
    | some e =>
      cases e with
      | bytes b => rfl
      | pair a b =>
        dsimp only
        by_cases hab : a < n + 1 ∧ b < n + 1
        · rw [if_pos hab, if_pos hab,
            expandFuel_stable g n a a (by omega) (le_refl a),
            expandFuel_stable g n b b (by omega) (le_refl b)]
          rfl
        · rw [if_neg hab, if_neg hab]

theorem naiveExpand_congr {g g' : List (Nat × GEntry)} :
    ∀ s, (∀ t, t ≤ s → dget g t = dget g' t) → naiveExpand g s = naiveExpand g' s := by
  intro s
  induction s using Nat.strong_induction_on with
  | _ s ih =>
    intro h
    rw [naiveExpand_eq, naiveExpand_eq, h s (le_refl s)]
    cases dget g' s with
    | none => rfl
    | some e =>
      cases e with
      | bytes b => rfl
      | pair a b =>
        dsimp only
        by_cases hab : a < s ∧ b < s
        · rw [if_pos hab, if_pos hab,
            ih a hab.1 (fun t ht => h t (by omega)),
            ih b hab.2 (fun t ht => h t (by omega))]
        · rw [if_neg hab, if_neg hab]

theorem naiveExpand_pview_congr {g g' : List (Nat × GEntry)}
    (h : ∀ t, pview g t = pview g' t) : ∀ s, naiveExpand g s = naiveExpand g' s := by
  intro s
  induction s using Nat.strong_induction_on with
  | _ s ih =>
    rw [naiveExpand_eq, naiveExpand_eq]
    have hs := h s
    cases hg : dget g s with
    | none =>
      cases hg' : dget g' s with
      | none => rfl
      | some e =>
        cases e with
        | bytes b => rfl
        | pair a b =>
          exfalso
          have hp : dget g s = some (.pair a b) :=
            pview_eq_some.mp (hs.trans (pview_eq_some.mpr hg'))
          rw [hg] at hp
          cases hp
    | some e =>
      cases e with
      | bytes b =>
        cases hg' : dget g' s with
        | none => rfl
        | some e' =>
          cases e' with
          | bytes b' => rfl
          | pair a' b' =>
            exfalso
            have hp : dget g s = some (.pair a' b') :=
              pview_eq_some.mp (hs.trans (pview_eq_some.mpr hg'))
            rw [hg] at hp
            simp at hp
      | pair a b =>
        have hps : pview g s = some (a, b) := pview_eq_some.mpr hg
        have hg' : dget g' s = some (.pair a b) := pview_eq_some.mp (hs ▸ hps)
        rw [hg']
        dsimp only
        by_cases hab : a < s ∧ b < s
        · rw [if_pos hab, if_pos hab, ih a hab.1, ih b hab.2]
        · rw [if_neg hab, if_neg hab]

theorem naiveExpand_ne_nil (g : List (Nat × GEntry)) (s : Nat) :
    naiveExpand g s ≠ [] := by
  induction s using Nat.strong_induction_on with
  | _ s ih =>
    rw [naiveExpand_eq]
    cases dget g s with
    | none => simp
    | some e =>
      cases e with
      | bytes b => simp
      | pair a b =>
        dsimp only
        by_cases hab : a < s ∧ b < s
        · rw [if_pos hab]
          simp [ih a hab.1]
        · rw [if_neg hab]
          simp

theorem expandSeq_append (g : List (Nat × GEntry)) (xs ys : List Nat) :
    expandSeq g (xs ++ ys) = expandSeq g xs ++ expandSeq g ys := by
  induction xs with
  | nil => rfl
  | cons s xs ih => simp [expandSeq, ih]

theorem wfdget_of_wfgram {g : List (Nat × GEntry)} (h : WFgram g) : WFdget g := by
  intro s a b hs
  have := h (s, .pair a b) (dget_mem hs)
  unfold entryWF at this
  exact of_decide_eq_true this

theorem le_maxList_of_mem {seq : List Nat} {s : Nat} (h : s ∈ seq) : s ≤ maxList seq := by
  induction seq with
  | nil => cases h
  | cons x rest ih =>
    rcases List.mem_cons.mp h with rfl | h
    · exact le_max_left _ _
    · exact le_trans (ih h) (le_max_right _ _)

theorem consistent_dget {g : List (Nat × GEntry)} {l : List (Nat × Nat)}
    (hc : ConsistentLens g l) {s n : Nat} (h : dget l s = some n) :
    match dget g s with
    | some (GEntry.pair a b) =>
      ∃ n1 n2, dget l a = some n1 ∧ dget l b = some n2 ∧ n = n1 + n2
    | _ => n = 1 := by
  have hm := hc (s, n) (dget_mem h)
  unfold lensEntryOK at hm
  revert hm
  cases hg : dget g s with
  | none =>
    intro hm
    simp only at hm ⊢
    have := of_decide_eq_true hm
    rw [h] at this
    exact Option.some.inj this
  | some e =>
    cases e with
    | bytes b =>
      intro hm
      simp only at hm ⊢
      have := of_decide_eq_true hm
      rw [h] at this
      exact Option.some.inj this
    | pair a b =>
      simp only
      cases ha : dget l a with
      | none => intro hm; cases hm
      | some n1 =>
        cases hb : dget l b with
        | none => intro hm; cases hm
        | some n2 =>
          intro hm
          have := of_decide_eq_true hm
          rw [h] at this
          exact ⟨n1, n2, rfl, rfl, Option.some.inj this⟩

/-- With acyclicity and consistency, every loaded symbol's length entry equals
its naive expansion length. -/
theorem lenExact_of_consistent {g : List (Nat × GEntry)} {l : List (Nat × Nat)}
    (hw : WFdget g) (hc : ConsistentLens g l) :
    ∀ s, (dget l s).isSome = true → LenExact g l s := by
  intro s
  induction s using Nat.strong_induction_on with
  | _ s ih =>
    intro hs
    obtain ⟨n, hn⟩ := Option.isSome_iff_exists.mp hs
    have hd := consistent_dget hc hn
    revert hd
    cases hg : dget g s with
    | none =>
      intro hd
      simp only at hd
      unfold LenExact
      rw [naiveExpand_eq, hg, hn, hd]
      rfl
    | some e =>
      cases e with
      | bytes b =>
        intro hd
        simp only at hd
        unfold LenExact
        rw [naiveExpand_eq, hg, hn, hd]
        rfl
      | pair a b =>
        intro hd
        simp only at hd
        obtain ⟨n1, n2, ha, hb, hsum⟩ := hd
        have hab := hw s a b hg
        have hea : LenExact g l a := ih a hab.1 (ha ▸ rfl)
        have heb : LenExact g l b := ih b hab.2 (hb ▸ rfl)
        unfold LenExact
        rw [naiveExpand_eq, hg]
        dsimp only
        rw [if_pos hab, hn, List.length_append]
        unfold LenExact at hea heb
        rw [ha] at hea
        rw [hb] at heb
        rw [← Option.some.inj hea, ← Option.some.inj heb, hsum]

/-- Consistency yields the pair-closure needed by the scan correctness proof. -/
theorem pairClosed_of_consistent {g : List (Nat × GEntry)} {l : List (Nat × Nat)}
    (hw : WFdget g) (hc : ConsistentLens g l) : PairClosedExact g l := by
  intro s a b hg hsome
  obtain ⟨n, hn⟩ := Option.isSome_iff_exists.mp hsome
  have hd := consistent_dget hc hn
  rw [hg] at hd
  obtain ⟨n1, n2, ha, hb, _⟩ := hd
  exact ⟨lenExact_of_consistent hw hc a (by rw [ha]; rfl),
    lenExact_of_consistent hw hc b (by rw [hb]; rfl)⟩

theorem uncompressedSize_eq_expandSeq_length {g : List (Nat × GEntry)}
    {l : List (Nat × Nat)} {seq : List Nat}
    (h : ∀ s ∈ seq, LenExact g l s) :
    uncompressedSize l seq = (expandSeq g seq).length := by
  induction seq with
  | nil => rfl
  | cons s rest ih =>
    have hs : LenExact g l s := h s (List.mem_cons_self _ _)
    unfold uncompressedSize expandSeq
    rw [List.length_append, hs, ih (fun t ht => h t (List.mem_cons_of_mem _ ht))]
    rfl

theorem scanSeq_cons (g : List (Nat × GEntry)) (l : List (Nat × Nat))
    (s : Nat) (rest : List Nat) (pos : Nat) :
    scanSeq g l (s :: rest) pos =
      match dget l s with
      | none => .keyErr
      | some symbol_len =>
        if pos < symbol_len then
          match dget g s with
          | some (.pair a b) => .descend a b pos
          | _ => .ret s
        else scanSeq g l rest (pos - symbol_len) := rfl

/-- Correctness of one scan pass on an in-range position. -/
theorem scanSeq_spec {g : List (Nat × GEntry)} {l : List (Nat × Nat)} :
    ∀ (seq : List Nat) (pos : Nat), (∀ s ∈ seq, LenExact g l s) →
    pos < (expandSeq g seq).length →
    ScanOK g l seq pos (scanSeq g l seq pos) := by
  intro seq
  induction seq with
  | nil =>
    intro pos _ hpos
    simp [expandSeq] at hpos
  | cons s rest ih =>
    intro pos hlen hpos
    have hs : LenExact g l s := hlen s (List.mem_cons_self _ _)
    unfold LenExact at hs
    rw [scanSeq_cons, hs]
    dsimp only
    by_cases hlt : pos < (naiveExpand g s).length
    · rw [if_pos hlt]
      cases hg : dget g s with
      | none =>
        have h1 : naiveExpand g s = [s] := by rw [naiveExpand_eq, hg]
        have hp0 : pos = 0 := by
          rw [h1] at hlt
          simpa using hlt
        refine ⟨List.mem_cons_self _ _, by simp [pview, hg], ?_⟩
        rw [expandSeq, List.getD_append _ _ _ _ hlt, h1, hp0]
        rfl
      | some e =>
        cases e with
        | bytes b =>
          have h1 : naiveExpand g s = [s] := by rw [naiveExpand_eq, hg]
          have hp0 : pos = 0 := by
            rw [h1] at hlt
            simpa using hlt
          refine ⟨List.mem_cons_self _ _, by simp [pview, hg], ?_⟩
          rw [expandSeq, List.getD_append _ _ _ _ hlt, h1, hp0]
          rfl
        | pair a b =>
          refine ⟨s, List.mem_cons_self _ _, hg, by rw [hs]; rfl, hlt, ?_⟩
          rw [expandSeq, List.getD_append _ _ _ _ hlt]
    · rw [if_neg hlt]
      push_neg at hlt
      have hpos' : pos - (naiveExpand g s).length < (expandSeq g rest).length := by
        rw [expandSeq, List.length_append] at hpos
        omega
      have hrec := ih (pos - (naiveExpand g s).length)
        (fun t ht => hlen t (List.mem_cons_of_mem _ ht)) hpos'
      have hgetD : (expandSeq g (s :: rest)).getD pos 0 =
          (expandSeq g rest).getD (pos - (naiveExpand g s).length) 0 := by
        rw [expandSeq, List.getD_append_right _ _ _ _ hlt]
      revert hrec
      cases hstep : scanSeq g l rest (pos - (naiveExpand g s).length) with
      | ret t =>
        intro hrec
        obtain ⟨hmem, hpv, hval⟩ := hrec
        exact ⟨List.mem_cons_of_mem _ hmem, hpv, hgetD ▸ hval⟩
      | descend a b q =>
        intro hrec
        obtain ⟨t, hmem, hgr, hls, hq, hval⟩ := hrec
        exact ⟨t, List.mem_cons_of_mem _ hmem, hgr, hls, hq, hgetD ▸ hval⟩
      | fallthrough q => intro hrec; exact hrec
      | keyErr => intro hrec; exact hrec

theorem raGo_succ (g : List (Nat × GEntry)) (l : List (Nat × Nat))
    (fuel : Nat) (seq : List Nat) (pos : Nat) :
    raGo g l (fuel + 1) seq pos =
      match scanSeq g l seq pos with
      | .ret t => .found t
      | .keyErr => .keyError
      | .descend a b q => raGo g l fuel [a, b] q
      | .fallthrough q => raGo g l fuel seq q := rfl

/-- Correctness and termination of the descent loop: with enough fuel
(two more than the largest id in the sequence), `raGo` returns exactly the
terminal at the requested position of the full expansion. -/
theorem raGo_spec {g : List (Nat × GEntry)} {l : List (Nat × Nat)}
    (hw : WFdget g) (hpc : PairClosedExact g l) :
    ∀ (fuel : Nat) (seq : List Nat) (pos : Nat), (∀ s ∈ seq, LenExact g l s) →
    pos < (expandSeq g seq).length → maxList seq + 2 ≤ fuel →
    raGo g l fuel seq pos = .found ((expandSeq g seq).getD pos 0) := by
  intro fuel
  induction fuel using Nat.strong_induction_on with
  | _ fuel ihf =>
    intro seq pos hlen hpos hfuel
    cases fuel with
    | zero => omega
    | succ f =>
      rw [raGo_succ]
      have hok := scanSeq_spec seq pos hlen hpos
      revert hok
      cases hstep : scanSeq g l seq pos with
      | ret t =>
        intro hok
        obtain ⟨hmem, hpv, hval⟩ := hok
        rw [hval]
      | keyErr => intro hok; cases hok
      | fallthrough q => intro hok; cases hok
      | descend a b q =>
        intro hok
        obtain ⟨t, hmem, hg, hls, hq, hval⟩ := hok
        dsimp only
        have hab := hw t a b hg
        have hexp : naiveExpand g t = naiveExpand g a ++ naiveExpand g b := by
          rw [naiveExpand_eq, hg]
          dsimp only
          rw [if_pos hab]
        have hexp2 : expandSeq g [a, b] = naiveExpand g a ++ naiveExpand g b := by
          show naiveExpand g a ++ (naiveExpand g b ++ []) = _
          rw [List.append_nil]
        have hlens : ∀ u ∈ [a, b], LenExact g l u := by
          intro u hu
          rcases List.mem_cons.mp hu with rfl | hu
          · exact (hpc t u b hg hls).1
          · rcases List.mem_cons.mp hu with rfl | hu
            · exact (hpc t a u hg hls).2
            · cases hu
        have hqlt : q < (expandSeq g [a, b]).length := by
          rw [hexp2, ← hexp]
          exact hq
        have hfb : maxList [a, b] + 2 ≤ f := by
          have ht := le_maxList_of_mem hmem
          have hm2 : maxList [a, b] = max a (max b 0) := rfl
          omega
        rw [ihf f (by omega) [a, b] q hlens hqlt hfb, hexp2, ← hexp, hval]

/-- A scan whose position is at or past the total expansion length falls
through with the total subtracted (the wrap-around behaviour of the
`while True` loop). -/
theorem scanSeq_fallthrough {g : List (Nat × GEntry)} {l : List (Nat × Nat)} :
    ∀ (seq : List Nat) (pos : Nat), (∀ s ∈ seq, LenExact g l s) →
    (expandSeq g seq).length ≤ pos →
    scanSeq g l seq pos = .fallthrough (pos - (expandSeq g seq).length) := by
  intro seq
  induction seq with
  | nil =>
    intro pos _ _
    simp [scanSeq, expandSeq]
  | cons s rest ih =>
    intro pos hlen hpos
    have hs : LenExact g l s := hlen s (List.mem_cons_self _ _)
    unfold LenExact at hs
    rw [scanSeq_cons, hs]
    dsimp only
    rw [expandSeq, List.length_append] at hpos
    rw [if_neg (by omega)]
    rw [ih (pos - (naiveExpand g s).length)
      (fun t ht => hlen t (List.mem_cons_of_mem _ ht)) (by omega)]
    have harith : pos - (naiveExpand g s).length - (expandSeq g rest).length =
        pos - (expandSeq g (s :: rest)).length := by
      rw [expandSeq, List.length_append]
      omega
    rw [harith]

/-- Wrap-around: each full pass of the scan subtracts the total expansion
length, so a position is equivalent to its remainder. -/
theorem raGo_mod {g : List (Nat × GEntry)} {l : List (Nat × Nat)} {seq : List Nat}
    (hlen : ∀ s ∈ seq, LenExact g l s) (hsz : 0 < (expandSeq g seq).length) :
    ∀ (pos fuel : Nat),
    raGo g l (pos / (expandSeq g seq).length + fuel) seq pos =
      raGo g l fuel seq (pos % (expandSeq g seq).length) := by
  intro pos
  induction pos using Nat.strong_induction_on with
  | _ pos ihp =>
    intro fuel
    by_cases hlt : pos < (expandSeq g seq).length
    · rw [Nat.div_eq_of_lt hlt, Nat.mod_eq_of_lt hlt, Nat.zero_add]
    · push_neg at hlt
      have hrw : pos = (pos - (expandSeq g seq).length) + (expandSeq g seq).length := by
        omega
      have hdiv : pos / (expandSeq g seq).length =
          (pos - (expandSeq g seq).length) / (expandSeq g seq).length + 1 := by
        conv_lhs => rw [hrw]
        exact Nat.add_div_right _ hsz
      have hmod : pos % (expandSeq g seq).length =
          (pos - (expandSeq g seq).length) % (expandSeq g seq).length := by
        conv_lhs => rw [hrw]
        exact Nat.add_mod_right _ _
      rw [hdiv, hmod]
      have hstep : ∀ f, raGo g l (f + 1) seq pos = raGo g l f seq
          (pos - (expandSeq g seq).length) := by
        intro f
        rw [raGo_succ, scanSeq_fallthrough seq pos hlen hlt]
      have hshape : (pos - (expandSeq g seq).length) / (expandSeq g seq).length + 1 + fuel =
          ((pos - (expandSeq g seq).length) / (expandSeq g seq).length + fuel) + 1 := by
        omega
      rw [hshape, hstep, ihp (pos - (expandSeq g seq).length) (by omega) fuel]

theorem dget_termLens (n : Nat) : ∀ s, dget (termLens n) s = if s < n then some 1 else none := by
  induction n with
  | zero =>
    intro s
    rw [if_neg (by omega)]
    rfl
  | succ n ih =>
    intro s
    show dget (termLens n ++ [(n, 1)]) s = _
    rw [dget_append_single, ih s]
    by_cases h : n = s
    · subst h
      rw [if_pos rfl, if_pos (by omega)]
    · rw [if_neg h]
      by_cases h2 : s < n
      · rw [if_pos h2, if_pos (by omega)]
      · rw [if_neg h2, if_neg (by omega)]

theorem dget_termEntriesA (cm : List Nat) (n : Nat) :
    ∀ s, dget (termEntriesA cm n) s =
      if s < n then some (.bytes (cm.getD s 0)) else none := by
  induction n with
  | zero =>
    intro s
    rw [if_neg (by omega)]
    rfl
  | succ n ih =>
    intro s
    show dget (termEntriesA cm n ++ [(n, .bytes (cm.getD n 0))]) s = _
    rw [dget_append_single, ih s]
    by_cases h : n = s
    · subst h
      rw [if_pos rfl, if_pos (by omega)]
    · rw [if_neg h]
      by_cases h2 : s < n
      · rw [if_pos h2, if_pos (by omega)]
      · rw [if_neg h2, if_neg (by omega)]

/-- The initial state of the Layout A loader satisfies the loop invariant. -/
theorem inv_init_original (cm : List Nat) (alpha : Nat) :
    LoadInv alpha alpha (termEntriesA cm alpha) (termLens alpha) := by
  refine ⟨le_refl alpha, ?_, ?_, ?_, ?_, ?_, ?_, ?_, ?_⟩
  · intro s hs
    rw [dget_termLens] at hs
    by_cases h : s < alpha
    · exact h
    · rw [if_neg h] at hs
      cases hs
  · intro s e hs
    rw [dget_termEntriesA] at hs
    by_cases h : s < alpha
    · exact h
    · rw [if_neg h] at hs
      cases hs
  · intro s hs
    rw [dget_termLens] at hs ⊢
    by_cases h : s < alpha
    · rw [if_pos h] at hs ⊢
      have hterm : naiveExpand (termEntriesA cm alpha) s = [s] := by
        rw [naiveExpand_eq, dget_termEntriesA, if_pos h]
      rw [hterm]
      rfl
    · rw [if_neg h] at hs
      cases hs
  · intro s a b hs
    rw [dget_termEntriesA] at hs
    by_cases h : s < alpha
    · rw [if_pos h] at hs
      cases hs
    · rw [if_neg h] at hs
      cases hs
  · intro s h
    rw [dget_termLens, if_pos h]
  · intro s hs h
    rw [dget_termLens] at hs
    by_cases hl : s < alpha
    · omega
    · rw [if_neg hl] at hs
      cases hs
  · intro s b hs
    rw [dget_termEntriesA] at hs
    by_cases h : s < alpha
    · exact h
    · rw [if_neg h] at hs
      cases hs
  · intro s e hs
    rw [dget_termEntriesA] at hs
    by_cases h : s < alpha
    · rw [if_pos h] at hs
      exact Or.inl ⟨_, (Option.some.inj hs).symm⟩
    · rw [if_neg h] at hs
      cases hs

/-- The initial state of the Layout B loader satisfies the loop invariant. -/
theorem inv_init_pfp (alpha : Nat) : LoadInv alpha alpha [] (termLens alpha) := by
  refine ⟨le_refl alpha, ?_, ?_, ?_, ?_, ?_, ?_, ?_, ?_⟩
  · intro s hs
    rw [dget_termLens] at hs
    by_cases h : s < alpha
    · exact h
    · rw [if_neg h] at hs
      cases hs
  · intro s e hs
    cases hs
  · intro s hs
    rw [dget_termLens] at hs ⊢
    by_cases h : s < alpha
    · rw [if_pos h] at hs ⊢
      have hterm : naiveExpand ([] : List (Nat × GEntry)) s = [s] := by
        rw [naiveExpand_eq]
        rfl
      rw [hterm]
      rfl
    · rw [if_neg h] at hs
      cases hs
  · intro s a b hs
    cases hs
  · intro s h
    rw [dget_termLens, if_pos h]
  · intro s hs h
    rw [dget_termLens] at hs
    by_cases hl : s < alpha
    · omega
    · rw [if_neg hl] at hs
      cases hs
  · intro s b hs
    cases hs
  · intro s e hs
    cases hs

/-- One iteration of the rule loop preserves the invariant. -/
theorem loadInv_step {alpha r : Nat} {g : List (Nat × GEntry)} {l : List (Nat × Nat)}
    (inv : LoadInv alpha r g l) {s1 s2 n1 n2 : Nat}
    (h1 : dget l s1 = some n1) (h2 : dget l s2 = some n2) :
    LoadInv alpha (r + 1) (g ++ [(r, .pair s1 s2)]) (l ++ [(r, n1 + n2)]) := by
  have hs1r : s1 < r := inv.ldom s1 (by rw [h1]; rfl)
  have hs2r : s2 < r := inv.ldom s2 (by rw [h2]; rfl)
  have hcong : ∀ s, s < r → naiveExpand (g ++ [(r, .pair s1 s2)]) s = naiveExpand g s := by
    intro s hs
    refine (naiveExpand_congr s ?_).symm
    intro t ht
    rw [dget_append_single, if_neg (by omega)]
  have hal := inv.alpha_le
  refine ⟨by omega, ?_, ?_, ?_, ?_, ?_, ?_, ?_, ?_⟩
  · intro s hs
    rw [dget_append_single] at hs
    by_cases hrs : r = s
    · omega
    · rw [if_neg hrs] at hs
      have := inv.ldom s hs
      omega
  · intro s e hs
    rw [dget_append_single] at hs
    by_cases hrs : r = s
    · omega
    · rw [if_neg hrs] at hs
      have := inv.gdom s e hs
      omega
  · intro s hs
    rw [dget_append_single] at hs ⊢
    by_cases hrs : r = s
    · subst hrs
      rw [if_pos rfl]
      have hgr : dget (g ++ [(r, GEntry.pair s1 s2)]) r = some (.pair s1 s2) := by
        rw [dget_append_single, if_pos rfl]
      rw [naiveExpand_eq, hgr]
      dsimp only
      rw [if_pos ⟨hs1r, hs2r⟩, List.length_append,
        hcong s1 hs1r, hcong s2 hs2r]
      have he1 := inv.lexact s1 (by rw [h1]; rfl)
      have he2 := inv.lexact s2 (by rw [h2]; rfl)
      rw [h1] at he1
      rw [h2] at he2
      rw [← Option.some.inj he1, ← Option.some.inj he2]
    · rw [if_neg hrs] at hs ⊢
      have hlt := inv.ldom s hs
      rw [hcong s hlt]
      exact inv.lexact s hs
  · intro s a b hs
    rw [dget_append_single] at hs
    by_cases hrs : r = s
    · rw [if_pos hrs] at hs
      obtain ⟨rfl, rfl⟩ : a = s1 ∧ b = s2 := by
        cases hs
        exact ⟨rfl, rfl⟩
      subst hrs
      refine ⟨?_, ?_, hs1r, hs2r, ?_⟩
      · rw [dget_append_single, if_neg (by omega), h1]
        rfl
      · rw [dget_append_single, if_neg (by omega), h2]
        rfl
      · rw [dget_append_single, if_pos rfl]
        rfl
    · rw [if_neg hrs] at hs
      obtain ⟨ha, hb, hals, hbls, hsl⟩ := inv.gpair s a b hs
      refine ⟨?_, ?_, hals, hbls, ?_⟩
      · rw [dget_append_single]
        by_cases hra : r = a
        · rw [if_pos hra]
          rfl
        · rw [if_neg hra]
          exact ha
      · rw [dget_append_single]
        by_cases hrb : r = b
        · rw [if_pos hrb]
          rfl
        · rw [if_neg hrb]
          exact hb
      · rw [dget_append_single]
        by_cases hrs2 : r = s
        · rw [if_pos hrs2]
          rfl
        · rw [if_neg hrs2]
          exact hsl
  · intro s hlt
    rw [dget_append_single, if_neg (by omega)]
    exact inv.lterm s hlt
  · intro s hs halpha
    rw [dget_append_single] at hs
    by_cases hrs : r = s
    · subst hrs
      refine ⟨s1, s2, ?_⟩
      rw [dget_append_single, if_pos rfl]
    · rw [if_neg hrs] at hs
      obtain ⟨a, b, hab⟩ := inv.lrule s hs halpha
      refine ⟨a, b, ?_⟩
      rw [dget_append_single, if_neg hrs]
      exact hab
  · intro s b hs
    rw [dget_append_single] at hs
    by_cases hrs : r = s
    · rw [if_pos hrs] at hs
      cases hs
    · rw [if_neg hrs] at hs
      exact inv.gbyte s b hs
  · intro s e hs
    rw [dget_append_single] at hs
    by_cases hrs : r = s
    · rw [if_pos hrs] at hs
      right
      omega
    · rw [if_neg hrs] at hs
      exact inv.glow s e hs

/-- The rule loop preserves the invariant across all iterations. -/
theorem buildRulesLoop_inv :
    ∀ (ps : List (Nat × Nat)) (alpha r : Nat) (g : List (Nat × GEntry))
      (l : List (Nat × Nat)) (G : List (Nat × GEntry)) (L : List (Nat × Nat)),
    LoadInv alpha r g l → buildRulesLoop r ps g l = .ok (G, L) →
    LoadInv alpha (r + ps.length) G L := by
  intro ps
  induction ps with
  | nil =>
    intro alpha r g l G L inv h
    obtain ⟨rfl, rfl⟩ : g = G ∧ l = L := by
      cases h
      exact ⟨rfl, rfl⟩
    simpa using inv
  | cons p ps ih =>
    intro alpha r g l G L inv h
    obtain ⟨s1, s2⟩ := p
    revert h
    show (match dget l s1, dget l s2 with
      | some n1, some n2 =>
        buildRulesLoop (r + 1) ps (g ++ [(r, .pair s1 s2)]) (l ++ [(r, n1 + n2)])
      | _, _ => Except.error "KeyError") = Except.ok (G, L) → _
    cases hd1 : dget l s1 with
    | none =>
      cases hd2 : dget l s2 with
      | none => intro h; cases h
      | some n2 => intro h; cases h
    | some n1 =>
      cases hd2 : dget l s2 with
      | none => intro h; cases h
      | some n2 =>
        intro h
        have hnext := ih alpha (r + 1) _ _ G L (loadInv_step inv hd1 hd2) h
        have harith : r + 1 + ps.length = r + (ps.length + 1) := by omega
        rw [harith] at hnext
        simpa using hnext

/-- A successful Layout A load satisfies the invariant at the declared
alphabet size. -/
theorem load_original_inv {file : List Nat} {G : List (Nat × GEntry)}
    {L : List (Nat × Nat)}
    (h : load_original_repair_grammar_with_lengths file = .ok (G, L)) :
    ∃ r, LoadInv (fileAlpha file) r G L := by
  unfold load_original_repair_grammar_with_lengths at h
  simp only [] at h
  split at h
  · cases h
  · split at h
    · cases h
    · split at h
      · cases h
      · exact ⟨_, buildRulesLoop_inv _ _ _ _ _ G L (inv_init_original _ _) h⟩

/-- A successful Layout B load satisfies the invariant at the declared
alphabet size. -/
theorem load_pfp_inv {file : List Nat} {G : List (Nat × GEntry)}
    {L : List (Nat × Nat)}
    (h : load_pfp_repair_grammar_with_lengths file = .ok (G, L)) :
    ∃ r, LoadInv (fileAlpha file) r G L := by
  unfold load_pfp_repair_grammar_with_lengths at h
  simp only [] at h
  split at h
  · cases h
  · split at h
    · cases h
    · exact ⟨_, buildRulesLoop_inv _ _ _ _ _ G L (inv_init_pfp _) h⟩

theorem loadInv_wfdget {alpha r : Nat} {G : List (Nat × GEntry)} {L : List (Nat × Nat)}
    (inv : LoadInv alpha r G L) : WFdget G := by
  intro s a b hs
  obtain ⟨_, _, ha, hb, _⟩ := inv.gpair s a b hs
  exact ⟨ha, hb⟩

theorem loadInv_pairClosed {alpha r : Nat} {G : List (Nat × GEntry)} {L : List (Nat × Nat)}
    (inv : LoadInv alpha r G L) : PairClosedExact G L := by
  intro s a b hs _
  obtain ⟨ha, hb, _, _, _⟩ := inv.gpair s a b hs
  exact ⟨inv.lexact a ha, inv.lexact b hb⟩

/-- A loaded symbol that is not a stored rule is a terminal: it sits below the
alphabet and has length 1. -/
theorem loadInv_terminal {alpha r : Nat} {G : List (Nat × GEntry)} {L : List (Nat × Nat)}
    (inv : LoadInv alpha r G L) {t : Nat} (ht : (dget L t).isSome = true)
    (hpv : pview G t = none) : t < alpha ∧ dget L t = some 1 := by
  by_cases hlt : t < alpha
  · exact ⟨hlt, inv.lterm t hlt⟩
  · exfalso
    obtain ⟨a, b, hab⟩ := inv.lrule t ht (by omega)
    rw [pview_eq_some.mpr hab] at hpv
    cases hpv

/-- Every id in the naive expansion of a loaded symbol is itself loaded and is
not a stored rule. -/
theorem loadInv_expand_mem {alpha r : Nat} {G : List (Nat × GEntry)} {L : List (Nat × Nat)}
    (inv : LoadInv alpha r G L) :
    ∀ s, (dget L s).isSome = true →
      ∀ t ∈ naiveExpand G s, (dget L t).isSome = true ∧ pview G t = none := by
  intro s
  induction s using Nat.strong_induction_on with
  | _ s ih =>
    intro hs t ht
    rw [naiveExpand_eq] at ht
    revert ht
    cases hg : dget G s with
    | none =>
      intro ht
      obtain rfl : t = s := by simpa using ht
      exact ⟨hs, by simp [pview, hg]⟩
    | some e =>
      cases e with
      | bytes b =>
        intro ht
        obtain rfl : t = s := by simpa using ht
        exact ⟨hs, by simp [pview, hg]⟩
      | pair a b =>
        obtain ⟨ha, hb, hals, hbls, _⟩ := inv.gpair s a b hg
        dsimp only
        rw [if_pos ⟨hals, hbls⟩]
        intro ht
        rcases List.mem_append.mp ht with ht | ht
        · exact ih a hals ha t ht
        · exact ih b hbls hb t ht

theorem expandSeq_exists_mem {g : List (Nat × GEntry)} :
    ∀ {seq : List Nat} {t : Nat}, t ∈ expandSeq g seq →
    ∃ s, s ∈ seq ∧ t ∈ naiveExpand g s := by
  intro seq
  induction seq with
  | nil => intro t ht; cases ht
  | cons s rest ih =>
    intro t ht
    rcases List.mem_append.mp ht with ht | ht
    · exact ⟨s, List.mem_cons_self _ _, ht⟩
    · obtain ⟨u, hu, htu⟩ := ih ht
      exact ⟨u, List.mem_cons_of_mem _ hu, htu⟩

/-- Either loader's successful output satisfies the invariant. -/
theorem load_either_inv {file : List Nat} {g : List (Nat × GEntry)} {l : List (Nat × Nat)}
    (hload : load_original_repair_grammar_with_lengths file = .ok (g, l) ∨
      load_pfp_repair_grammar_with_lengths file = .ok (g, l)) :
    ∃ r, LoadInv (fileAlpha file) r g l := by
  rcases hload with h | h
  · exact load_original_inv h
  · exact load_pfp_inv h

/-- C1: for grammars and lengths produced by either loader from well-formed
input, with every top-level id loaded, decoding positions `0..size-1` through
`random_access` and concatenating reproduces exactly the naive recursive
expansion of the top-level sequence; in particular position 0 decodes the
first character of the first symbol's expansion and position `size-1` the
last character of the last symbol's expansion. -/
theorem C1_round_trip (file : List Nat) (g : List (Nat × GEntry)) (l : List (Nat × Nat))
    (seq : List Nat) (fuel : Nat)
    (hload : load_original_repair_grammar_with_lengths file = .ok (g, l) ∨
      load_pfp_repair_grammar_with_lengths file = .ok (g, l))
    (hwf : WFgram g) (hseq : SeqCovered l seq) (hfuel : maxList seq + 2 ≤ fuel) :
    (List.range (uncompressedSize l seq)).map (fun p => random_access seq g l p fuel) =
      (expandSeq g seq).map RAResult.found ∧
    (∀ s0 rest, seq = s0 :: rest → 0 < uncompressedSize l seq →
      random_access seq g l 0 fuel = .found ((naiveExpand g s0).getD 0 0)) ∧
    (∀ pre sN, seq = pre ++ [sN] → 0 < uncompressedSize l seq →
      random_access seq g l (uncompressedSize l seq - 1) fuel =
        .found ((naiveExpand g sN).getD ((naiveExpand g sN).length - 1) 0)) := by
  obtain ⟨r0, inv⟩ := load_either_inv hload
  have hw : WFdget g := wfdget_of_wfgram hwf
  have hpc := loadInv_pairClosed inv
  have hlen : ∀ s ∈ seq, LenExact g l s := fun s hs => inv.lexact s (hseq s hs)
  have hsz : uncompressedSize l seq = (expandSeq g seq).length :=
    uncompressedSize_eq_expandSeq_length hlen
  refine ⟨?_, ?_, ?_⟩
  · apply List.ext_getElem
    · simp [hsz]
    · intro i h1 h2
      rw [List.getElem_map, List.getElem_map, List.getElem_range]
      have hi : i < (expandSeq g seq).length := by simpa using h2
      show raGo g l fuel seq i = _
      rw [raGo_spec hw hpc fuel seq i hlen hi hfuel, List.getD_eq_getElem _ _ hi]
  · intro s0 rest hseq0 hszpos
    subst hseq0
    rw [hsz] at hszpos
    show raGo g l fuel (s0 :: rest) 0 = _
    rw [raGo_spec hw hpc fuel _ 0 hlen hszpos hfuel]
    have hlen0 : 0 < (naiveExpand g s0).length :=
      List.length_pos.mpr (naiveExpand_ne_nil g s0)
    rw [expandSeq, List.getD_append _ _ _ _ hlen0]
  · intro pre sN hseqN hszpos
    subst hseqN
    have hszpos' := hszpos
    rw [hsz] at hszpos'
    have hposlt : uncompressedSize l (pre ++ [sN]) - 1 <
        (expandSeq g (pre ++ [sN])).length := by omega
    show raGo g l fuel (pre ++ [sN]) _ = _
    rw [raGo_spec hw hpc fuel _ _ hlen hposlt hfuel]
    have hsn : expandSeq g [sN] = naiveExpand g sN := by
      show naiveExpand g sN ++ ([] : List Nat) = _
      rw [List.append_nil]
    have hlenN : 0 < (naiveExpand g sN).length :=
      List.length_pos.mpr (naiveExpand_ne_nil g sN)
    have hlens : (expandSeq g (pre ++ [sN])).length =
        (expandSeq g pre).length + (naiveExpand g sN).length := by
      rw [expandSeq_append, List.length_append, hsn]
    have hge : (expandSeq g pre).length ≤ uncompressedSize l (pre ++ [sN]) - 1 := by
      omega
    rw [expandSeq_append, hsn, List.getD_append_right _ _ _ _ hge]
    have harith : uncompressedSize l (pre ++ [sN]) - 1 - (expandSeq g pre).length =
        (naiveExpand g sN).length - 1 := by
      omega
    rw [harith]

theorem C1_round_trip_witness :
    (load_original_repair_grammar_with_lengths wfileA = .ok (wgA, wlA) ∨
      load_pfp_repair_grammar_with_lengths wfileA = .ok (wgA, wlA)) ∧
    WFgram wgA ∧ SeqCovered wlA [1] ∧ maxList [1] + 2 ≤ 3 ∧
    (List.range (uncompressedSize wlA [1])).map
        (fun p => random_access [1] wgA wlA p 3) =
      (expandSeq wgA [1]).map RAResult.found :=
  ⟨Or.inl rfl, by decide, by decide, by decide,
    (C1_round_trip wfileA wgA wlA [1] 3 (Or.inl rfl) (by decide) (by decide)
      (by decide)).1⟩

/-- C2: after either loader succeeds on well-formed input, every terminal id
below the declared alphabet size has length 1, every stored rule's length is
the sum of its children's lengths, and the sum of lengths over any fully
loaded top-level sequence equals the length of its naive full expansion. -/
theorem C2_lengths_invariant (file : List Nat) (g : List (Nat × GEntry))
    (l : List (Nat × Nat))
    (hload : load_original_repair_grammar_with_lengths file = .ok (g, l) ∨
      load_pfp_repair_grammar_with_lengths file = .ok (g, l))
    (hwf : WFgram g) :
    (∀ i, i < fileAlpha file → dget l i = some 1) ∧
    (∀ rid a b, dget g rid = some (.pair a b) →
      ∃ n1 n2, dget l a = some n1 ∧ dget l b = some n2 ∧ dget l rid = some (n1 + n2)) ∧
    (∀ seq, SeqCovered l seq →
      uncompressedSize l seq = (expandSeq g seq).length) := by
  obtain ⟨r0, inv⟩ := load_either_inv hload
  refine ⟨inv.lterm, ?_, ?_⟩
  · intro rid a b hr
    obtain ⟨ha, hb, hlta, hltb, hsome⟩ := inv.gpair rid a b hr
    refine ⟨(naiveExpand g a).length, (naiveExpand g b).length,
      inv.lexact a ha, inv.lexact b hb, ?_⟩
    have hrid := inv.lexact rid hsome
    rw [naiveExpand_eq, hr] at hrid
    dsimp only at hrid
    rw [if_pos ⟨hlta, hltb⟩, List.length_append] at hrid
    exact hrid
  · intro seq hseq
    exact uncompressedSize_eq_expandSeq_length (fun s hs => inv.lexact s (hseq s hs))

theorem C2_lengths_invariant_witness :
    (load_original_repair_grammar_with_lengths wfileA = .ok (wgA, wlA) ∨
      load_pfp_repair_grammar_with_lengths wfileA = .ok (wgA, wlA)) ∧
    WFgram wgA ∧
    (∀ i, i < fileAlpha wfileA → dget wlA i = some 1) :=
  ⟨Or.inl rfl, by decide,
    (C2_lengths_invariant wfileA wgA wlA (Or.inl rfl) (by decide)).1⟩

/-- C10: for either loader's output on well-formed input with a fully loaded
top-level sequence, the id `random_access` returns at an in-range position is
a terminal: strictly below the declared alphabet size and of length 1. -/
theorem C10_terminal_result (file : List Nat) (g : List (Nat × GEntry))
    (l : List (Nat × Nat)) (seq : List Nat) (pos fuel : Nat)
    (hload : load_original_repair_grammar_with_lengths file = .ok (g, l) ∨
      load_pfp_repair_grammar_with_lengths file = .ok (g, l))
    (hwf : WFgram g) (hseq : SeqCovered l seq)
    (hpos : pos < uncompressedSize l seq) (hfuel : maxList seq + 2 ≤ fuel) :
    ∃ t, random_access seq g l pos fuel = .found t ∧
      t < fileAlpha file ∧ dget l t = some 1 := by
  obtain ⟨r0, inv⟩ := load_either_inv hload
  have hw : WFdget g := wfdget_of_wfgram hwf
  have hpc := loadInv_pairClosed inv
  have hlen : ∀ s ∈ seq, LenExact g l s := fun s hs => inv.lexact s (hseq s hs)
  have hsz : uncompressedSize l seq = (expandSeq g seq).length :=
    uncompressedSize_eq_expandSeq_length hlen
  have hpos' : pos < (expandSeq g seq).length := hsz ▸ hpos
  refine ⟨(expandSeq g seq).getD pos 0,
    raGo_spec hw hpc fuel seq pos hlen hpos' hfuel, ?_⟩
  have hmem : (expandSeq g seq).getD pos 0 ∈ expandSeq g seq := by
    rw [List.getD_eq_getElem _ _ hpos']
    exact List.getElem_mem hpos'
  obtain ⟨s, hsseq, htmem⟩ := expandSeq_exists_mem hmem
  obtain ⟨hsome, hpv⟩ := loadInv_expand_mem inv s (hseq s hsseq) _ htmem
  exact loadInv_terminal inv hsome hpv

theorem C10_terminal_result_witness :
    (load_original_repair_grammar_with_lengths wfileB = .ok (wgB, wlB) ∨
      load_pfp_repair_grammar_with_lengths wfileB = .ok (wgB, wlB)) ∧
    WFgram wgB ∧ SeqCovered wlB [1] ∧ 1 < uncompressedSize wlB [1] ∧
    maxList [1] + 2 ≤ 3 ∧
    (∃ t, random_access [1] wgB wlB 1 3 = .found t ∧
      t < fileAlpha wfileB ∧ dget wlB t = some 1) :=
  ⟨Or.inr rfl, by decide, by decide, by decide, by decide,
    C10_terminal_result wfileB wgB wlB [1] 1 3 (Or.inr rfl) (by decide) (by decide)
      (by decide) (by decide)⟩

/-- C5: for any acyclic grammar, any lengths table consistent with it, any
fully loaded sequence and any in-range position, the descent loop terminates:
a fuel of two more than the largest top-level id already yields a result. -/
theorem C5_descent_terminates (g : List (Nat × GEntry)) (l : List (Nat × Nat))
    (seq : List Nat) (pos : Nat)
    (hwf : WFgram g) (hcons : ConsistentLens g l) (hseq : SeqCovered l seq)
    (hpos : pos < uncompressedSize l seq) :
    ∃ t, random_access seq g l pos (maxList seq + 2) = .found t := by
  have hw : WFdget g := wfdget_of_wfgram hwf
  have hpc := pairClosed_of_consistent hw hcons
  have hlen : ∀ s ∈ seq, LenExact g l s :=
    fun s hs => lenExact_of_consistent hw hcons s (hseq s hs)
  have hsz : uncompressedSize l seq = (expandSeq g seq).length :=
    uncompressedSize_eq_expandSeq_length hlen
  exact ⟨(expandSeq g seq).getD pos 0,
    raGo_spec hw hpc _ seq pos hlen (hsz ▸ hpos) (le_refl _)⟩

theorem C5_descent_terminates_witness :
    WFgram wgB ∧ ConsistentLens wgB wlB ∧ SeqCovered wlB [1] ∧
    1 < uncompressedSize wlB [1] ∧
    (∃ t, random_access [1] wgB wlB 1 (maxList [1] + 2) = .found t) :=
  ⟨by decide, by decide, by decide, by decide,
    C5_descent_terminates wgB wlB [1] 1 (by decide) (by decide) (by decide) (by decide)⟩

/-- C9: with an acyclic grammar, consistent lengths, a nonempty fully loaded
sequence of positive total length, a position at or past the total does not
raise an error: each full pass subtracts the total, and the result equals
`random_access` at the position's remainder. -/
theorem C9_wraparound (g : List (Nat × GEntry)) (l : List (Nat × Nat))
    (seq : List Nat) (pos : Nat)
    (hwf : WFgram g) (hcons : ConsistentLens g l) (hseq : SeqCovered l seq)
    (hne : seq ≠ []) (hsz : 0 < uncompressedSize l seq)
    (hge : uncompressedSize l seq ≤ pos) :
    ∃ t, random_access seq g l pos
        (pos / uncompressedSize l seq + (maxList seq + 2)) = .found t ∧
      random_access seq g l (pos % uncompressedSize l seq) (maxList seq + 2) =
        .found t := by
  have hw : WFdget g := wfdget_of_wfgram hwf
  have hpc := pairClosed_of_consistent hw hcons
  have hlen : ∀ s ∈ seq, LenExact g l s :=
    fun s hs => lenExact_of_consistent hw hcons s (hseq s hs)
  have hszE : uncompressedSize l seq = (expandSeq g seq).length :=
    uncompressedSize_eq_expandSeq_length hlen
  have hEpos : 0 < (expandSeq g seq).length := hszE ▸ hsz
  have hmodlt : pos % (expandSeq g seq).length < (expandSeq g seq).length :=
    Nat.mod_lt _ hEpos
  refine ⟨(expandSeq g seq).getD (pos % (expandSeq g seq).length) 0, ?_, ?_⟩
  · show raGo g l (pos / uncompressedSize l seq + (maxList seq + 2)) seq pos = _
    rw [hszE, raGo_mod hlen hEpos pos (maxList seq + 2),
      raGo_spec hw hpc _ seq _ hlen hmodlt (le_refl _)]
  · show raGo g l (maxList seq + 2) seq (pos % uncompressedSize l seq) = _
    rw [hszE, raGo_spec hw hpc _ seq _ hlen hmodlt (le_refl _)]

theorem C9_wraparound_witness :
    WFgram wgB ∧ ConsistentLens wgB wlB ∧ SeqCovered wlB [1] ∧
    ([1] : List Nat) ≠ [] ∧ 0 < uncompressedSize wlB [1] ∧
    uncompressedSize wlB [1] ≤ 5 ∧
    (∃ t, random_access [1] wgB wlB 5
        (5 / uncompressedSize wlB [1] + (maxList [1] + 2)) = .found t ∧
      random_access [1] wgB wlB (5 % uncompressedSize wlB [1]) (maxList [1] + 2) =
        .found t) :=
  ⟨by decide, by decide, by decide, by decide, by decide, by decide,
    C9_wraparound wgB wlB [1] 5 (by decide) (by decide) (by decide) (by decide)
      (by decide) (by decide)⟩

/-- The rule loop can only fail with a `KeyError`. -/
theorem buildRulesLoop_error :
    ∀ (ps : List (Nat × Nat)) (r : Nat) (g : List (Nat × GEntry))
      (l : List (Nat × Nat)) (m : String),
    buildRulesLoop r ps g l = .error m → m = "KeyError" := by
  intro ps
  induction ps with
  | nil =>
    intro r g l m h
    cases h
  | cons p ps ih =>
    intro r g l m h
    obtain ⟨s1, s2⟩ := p
    revert h
    show (match dget l s1, dget l s2 with
      | some n1, some n2 =>
        buildRulesLoop (r + 1) ps (g ++ [(r, .pair s1 s2)]) (l ++ [(r, n1 + n2)])
      | _, _ => Except.error "KeyError") = Except.error m → _
    cases hd1 : dget l s1 with
    | none =>
      cases hd2 : dget l s2 with
      | none =>
        intro h
        injection h with h2
        exact h2.symm
      | some n2 =>
        intro h
        injection h with h2
        exact h2.symm
    | some n1 =>
      cases hd2 : dget l s2 with
      | none =>
        intro h
        injection h with h2
        exact h2.symm
      | some n2 => exact ih (r + 1) _ _ m

/-- C3 counterexample: rules files whose record region is 3 bytes (not a
multiple of 8) load successfully under both layouts, ignoring the trailing
bytes, instead of failing with a malformed-input error. -/
theorem C3_counterexample :
    (7 - 4) % 8 = 3 ∧
    load_pfp_repair_grammar_with_lengths [1, 0, 0, 0, 9, 9, 9] = .ok ([], [(0, 1)]) ∧
    (8 - 4 - 1) % 8 = 3 ∧
    load_original_repair_grammar_with_lengths [1, 0, 0, 0, 65, 9, 9, 9] =
      .ok ([(0, GEntry.bytes 65)], [(0, 1)]) :=
  ⟨rfl, rfl, rfl, rfl⟩

/-- C3 amended: the truncated-rules-data error is unreachable; once the
alphabet (and, for Layout A, the character map) is read, the loaders keep
`floor(region / 8)` records and silently ignore up to 7 trailing bytes, so a
failing load can only report a missing alphabet, a missing character map, or
a `KeyError` from an out-of-order rule record. -/
theorem C3_amended (file : List Nat) (m : String)
    (h : load_original_repair_grammar_with_lengths file = .error m ∨
      load_pfp_repair_grammar_with_lengths file = .error m) :
    m = "Error: Cannot read alphabet from rules file" ∨
    m = "Error: Could not read character map from rules file" ∨
    m = "KeyError" := by
  rcases h with h | h
  · unfold load_original_repair_grammar_with_lengths at h
    simp only [] at h
    split at h
    · left
      injection h with h2
      exact h2.symm
    · split at h
      · right
        left
        injection h with h2
        exact h2.symm
      · split at h
        · exfalso
          next hcond =>
            rw [List.length_take, List.length_drop, List.length_drop] at hcond
            omega
        · right
          right
          exact buildRulesLoop_error _ _ _ _ m h
  · unfold load_pfp_repair_grammar_with_lengths at h
    simp only [] at h
    split at h
    · left
      injection h with h2
      exact h2.symm
    · split at h
      · exfalso
        next hcond =>
          rw [List.length_take, List.length_drop] at hcond
          omega
      · right
        right
        exact buildRulesLoop_error _ _ _ _ m h

theorem C3_amended_witness :
    (load_original_repair_grammar_with_lengths [] =
        .error "Error: Cannot read alphabet from rules file" ∨
      load_pfp_repair_grammar_with_lengths [] =
        .error "Error: Cannot read alphabet from rules file") ∧
    ("Error: Cannot read alphabet from rules file" =
        "Error: Cannot read alphabet from rules file" ∨
      "Error: Cannot read alphabet from rules file" =
        "Error: Could not read character map from rules file" ∨
      "Error: Cannot read alphabet from rules file" = "KeyError") :=
  ⟨Or.inl rfl, C3_amended [] _ (Or.inl rfl)⟩

/-- C4 counterexample: a 5-byte sequence file (size not a multiple of 4) loads
successfully as one integer, silently dropping the trailing byte, instead of
raising a malformed-input error. -/
theorem C4_counterexample :
    5 % 4 = 1 ∧ load_compressed_str [1, 0, 0, 0, 9] = .ok [1] :=
  ⟨rfl, rfl⟩

theorem loadStrLoop_ok :
    ∀ (k : Nat) (bytes : List Nat), 4 * k ≤ bytes.length →
    ∃ out, loadStrLoop k bytes = .ok out ∧ out.length = k := by
  intro k
  induction k with
  | zero =>
    intro bytes _
    exact ⟨[], rfl, rfl⟩
  | succ k ih =>
    intro bytes hlen
    obtain ⟨out, hout, houtlen⟩ := ih (bytes.drop 4) (by rw [List.length_drop]; omega)
    refine ⟨u32of (bytes.take 4) :: out, ?_, by simp [houtlen]⟩
    show (if (bytes.take 4).length < 4 then
        Except.error "Error: Truncated file, could not read full integer."
      else
        match loadStrLoop k (bytes.drop 4) with
        | .ok rest => .ok (u32of (bytes.take 4) :: rest)
        | .error e => .error e) = _
    rw [if_neg (by rw [List.length_take]; omega), hout]

/-- C4 amended: `load_compressed_str` never fails; it returns exactly
`fileSize / 4` integers, silently dropping the trailing `fileSize mod 4`
bytes, because the read loop runs `fileSize // 4` times and never attempts
the leftover partial integer. -/
theorem C4_amended (file : List Nat) :
    ∃ seq, load_compressed_str file = .ok seq ∧ seq.length = file.length / 4 :=
  loadStrLoop_ok (file.length / 4) file (by omega)

theorem maxDepthFuel_zero (g : List (Nat × GEntry)) (s : Nat) :
    maxDepthFuel g 0 s = 0 := rfl

theorem maxDepthFuel_succ (g : List (Nat × GEntry)) (f s : Nat) :
    maxDepthFuel g (f + 1) s =
      match dget g s with
      | some (.pair a b) =>
        if a < s ∧ b < s then 1 + max (maxDepthFuel g f a) (maxDepthFuel g f b) else 0
      | _ => 0 := rfl

theorem maxDepthFuel_stable (g : List (Nat × GEntry)) :
    ∀ f1 f2 s, s ≤ f1 → s ≤ f2 → maxDepthFuel g f1 s = maxDepthFuel g f2 s := by
  intro f1
  induction f1 with
  | zero =>
    intro f2 s h1 h2
    interval_cases s
    cases f2 with
    | zero => rfl
    | succ f =>
      rw [maxDepthFuel_zero, maxDepthFuel_succ]
      cases dget g 0 with
      | none => rfl
      | some e =>
        cases e with
        | bytes b => rfl
        | pair a b =>
          dsimp only
          rw [if_neg (by omega)]
  | succ f1 ih =>
    intro f2 s h1 h2
    cases f2 with
    | zero =>
      interval_cases s
      rw [maxDepthFuel_zero, maxDepthFuel_succ]
      cases dget g 0 with
      | none => rfl
      | some e =>
        cases e with
        | bytes b => rfl
        | pair a b =>
          dsimp only
          rw [if_neg (by omega)]
    | succ f2 =>
      rw [maxDepthFuel_succ, maxDepthFuel_succ]
      cases dget g s with
      | none => rfl
      | some e =>
        cases e with
        | bytes b => rfl
        | pair a b =>
          dsimp only
          by_cases hab : a < s ∧ b < s
          · rw [if_pos hab, if_pos hab, ih f2 a (by omega) (by omega),
              ih f2 b (by omega) (by omega)]
          · rw [if_neg hab, if_neg hab]

/-- The recursive unfolding of `get_max_depth`. -/
theorem get_max_depth_eq (g : List (Nat × GEntry)) (s : Nat) :
    get_max_depth g s =
      match dget g s with
      | some (.pair a b) =>
        if a < s ∧ b < s then 1 + max (get_max_depth g a) (get_max_depth g b) else 0
      | _ => 0 := by
  show maxDepthFuel g s s = _
  cases s with
  | zero =>
    rw [maxDepthFuel_zero]
    cases dget g 0 with
    | none => rfl
    | some e =>
      cases e with
      | bytes b => rfl
      | pair a b =>
        dsimp only
        rw [if_neg (by omega)]
  | succ n =>
    rw [maxDepthFuel_succ]
    cases dget g (n + 1) with
    | none => rfl
    | some e =>
      cases e with
      | bytes b => rfl
      | pair a b =>
        dsimp only
        by_cases hab : a < n + 1 ∧ b < n + 1
        · rw [if_pos hab, if_pos hab,
            maxDepthFuel_stable g n a a (by omega) (le_refl a),
            maxDepthFuel_stable g n b b (by omega) (le_refl b)]
          rfl
        · rw [if_neg hab, if_neg hab]

theorem leafDepthSumFuel_zero (g : List (Nat × GEntry)) (l : List (Nat × Nat)) (s : Nat) :
    leafDepthSumFuel g l 0 s = 0 := rfl

theorem leafDepthSumFuel_succ (g : List (Nat × GEntry)) (l : List (Nat × Nat)) (f s : Nat) :
    leafDepthSumFuel g l (f + 1) s =
      match dget g s with
      | some (.pair a b) =>
        if a < s ∧ b < s then
          leafDepthSumFuel g l f a + leafDepthSumFuel g l f b +
            (dget l a).getD 0 + (dget l b).getD 0
        else 0
      | _ => 0 := rfl

theorem leafDepthSumFuel_stable (g : List (Nat × GEntry)) (l : List (Nat × Nat)) :
    ∀ f1 f2 s, s ≤ f1 → s ≤ f2 → leafDepthSumFuel g l f1 s = leafDepthSumFuel g l f2 s := by
  intro f1
  induction f1 with
  | zero =>
    intro f2 s h1 h2
    interval_cases s
    cases f2 with
    | zero => rfl
    | succ f =>
      rw [leafDepthSumFuel_zero, leafDepthSumFuel_succ]
      cases dget g 0 with
      | none => rfl
      | some e =>
        cases e with
        | bytes b => rfl
        | pair a b =>
          dsimp only
          rw [if_neg (by omega)]
  | succ f1 ih =>
    intro f2 s h1 h2
    cases f2 with
    | zero =>
      interval_cases s
      rw [leafDepthSumFuel_zero, leafDepthSumFuel_succ]
      cases dget g 0 with
      | none => rfl
      | some e =>
        cases e with
        | bytes b => rfl
        | pair a b =>
          dsimp only
          rw [if_neg (by omega)]
    | succ f2 =>
      rw [leafDepthSumFuel_succ, leafDepthSumFuel_succ]
      cases dget g s with
      | none => rfl
      | some e =>
        cases e with
        | bytes b => rfl
        | pair a b =>
          dsimp only
          by_cases hab : a < s ∧ b < s
          · rw [if_pos hab, if_pos hab, ih f2 a (by omega) (by omega),
              ih f2 b (by omega) (by omega)]
          · rw [if_neg hab, if_neg hab]

/-- The recursive unfolding of `get_leaf_depth_sum`. -/
theorem get_leaf_depth_sum_eq (g : List (Nat × GEntry)) (l : List (Nat × Nat)) (s : Nat) :
    get_leaf_depth_sum g l s =
      match dget g s with
      | some (.pair a b) =>
        if a < s ∧ b < s then
          get_leaf_depth_sum g l a + get_leaf_depth_sum g l b +
            (dget l a).getD 0 + (dget l b).getD 0
        else 0
      | _ => 0 := by
  show leafDepthSumFuel g l s s = _
  cases s with
  | zero =>
    rw [leafDepthSumFuel_zero]
    cases dget g 0 with
    | none => rfl
    | some e =>
      cases e with
      | bytes b => rfl
      | pair a b =>
        dsimp only
        rw [if_neg (by omega)]
  | succ n =>
    rw [leafDepthSumFuel_succ]
    cases dget g (n + 1) with
    | none => rfl
    | some e =>
      cases e with
      | bytes b => rfl
      | pair a b =>
        dsimp only
        by_cases hab : a < n + 1 ∧ b < n + 1
        · rw [if_pos hab, if_pos hab,
            leafDepthSumFuel_stable g l n a a (by omega) (le_refl a),
            leafDepthSumFuel_stable g l n b b (by omega) (le_refl b)]
          rfl
        · rw [if_neg hab, if_neg hab]

theorem foldl_max_map (f : Nat → Nat) :
    ∀ (xs : List Nat) (a : Nat),
    xs.foldl (fun m s => max m (f s)) a = max a ((xs.map f).foldr max 0) := by
  intro xs
  induction xs with
  | nil =>
    intro a
    simp
  | cons x xs ih =>
    intro a
    show xs.foldl (fun m s => max m (f s)) (max a (f x)) = _
    rw [ih (max a (f x))]
    simp [Nat.max_assoc]

theorem foldl_add_map (f : Nat → Nat) :
    ∀ (xs : List Nat) (a : Nat),
    xs.foldl (fun t s => t + f s) a = a + (xs.map f).sum := by
  intro xs
  induction xs with
  | nil =>
    intro a
    simp
  | cons x xs ih =>
    intro a
    show xs.foldl (fun t s => t + f s) (a + f x) = _
    rw [ih (a + f x)]
    simp [Nat.add_assoc]

/-- C6: on an acyclic grammar with a consistent lengths table, the memoized
depth functions satisfy the pure recurrences (0 at terminal-like symbols,
`1 + max` of children for `maxDepth`, children's sums plus both children's
lengths for `leafDepthSum`); the reported maximum depth is the maximum of
`maxDepth` over the top-level sequence, the reported total is the sum of
`leafDepthSum` over it, and the reported average is that sum divided by the
uncompressed size, 0 when the size is 0. -/
theorem C6_depth_stats (g : List (Nat × GEntry)) (l : List (Nat × Nat))
    (seq : List Nat) (size : Nat)
    (hwf : WFgram g) (hcons : ConsistentLens g l) :
    (∀ s a b, dget g s = some (.pair a b) →
      get_max_depth g s = 1 + max (get_max_depth g a) (get_max_depth g b)) ∧
    (∀ s, pview g s = none → get_max_depth g s = 0) ∧
    (∀ s a b n1 n2, dget g s = some (.pair a b) →
      dget l a = some n1 → dget l b = some n2 →
      get_leaf_depth_sum g l s =
        get_leaf_depth_sum g l a + get_leaf_depth_sum g l b + n1 + n2) ∧
    (∀ s, pview g s = none → get_leaf_depth_sum g l s = 0) ∧
    (calculate_grammar_depth_stats g seq l size).1 =
      (seq.map (get_max_depth g)).foldr max 0 ∧
    (calculate_grammar_depth_stats g seq l size).2.1 =
      (seq.map (get_leaf_depth_sum g l)).sum ∧
    (calculate_grammar_depth_stats g seq l size).2.2 =
      (if size = 0 then 0
        else ((seq.map (get_leaf_depth_sum g l)).sum : ℚ) / (size : ℚ)) := by
  have hw : WFdget g := wfdget_of_wfgram hwf
  refine ⟨?_, ?_, ?_, ?_, ?_, ?_, ?_⟩
  · intro s a b hs
    rw [get_max_depth_eq, hs]
    dsimp only
    rw [if_pos (hw s a b hs)]
  · intro s hpv
    rw [get_max_depth_eq]
    revert hpv
    cases hs : dget g s with
    | none => intro hpv; rfl
    | some e =>
      cases e with
      | bytes b => intro hpv; rfl
      | pair a b =>
        intro hpv
        rw [pview_eq_some.mpr hs] at hpv
        cases hpv
  · intro s a b n1 n2 hs ha hb
    rw [get_leaf_depth_sum_eq, hs]
    dsimp only
    rw [if_pos (hw s a b hs), ha, hb]
    rfl
  · intro s hpv
    rw [get_leaf_depth_sum_eq]
    revert hpv
    cases hs : dget g s with
    | none => intro hpv; rfl
    | some e =>
      cases e with
      | bytes b => intro hpv; rfl
      | pair a b =>
        intro hpv
        rw [pview_eq_some.mpr hs] at hpv
        cases hpv
  · show seq.foldl (fun m s => max m (get_max_depth g s)) 0 = _
    rw [foldl_max_map (get_max_depth g) seq 0]
    simp
  · show seq.foldl (fun t s => t + get_leaf_depth_sum g l s) 0 = _
    rw [foldl_add_map (get_leaf_depth_sum g l) seq 0]
    simp
  · show (if size > 0 then
        ((seq.foldl (fun t s => t + get_leaf_depth_sum g l s) 0 : Nat) : ℚ) / (size : ℚ)
      else 0) = _
    rw [foldl_add_map (get_leaf_depth_sum g l) seq 0]
    by_cases hz : size = 0
    · rw [if_neg (by omega), if_pos hz]
    · rw [if_pos (by omega), if_neg hz]
      simp

theorem C6_depth_stats_witness :
    WFgram wgB ∧ ConsistentLens wgB wlB ∧
    get_max_depth wgB 1 = 1 + max (get_max_depth wgB 0) (get_max_depth wgB 0) ∧
    (calculate_grammar_depth_stats wgB [1] wlB 2).2.2 =
      (if (2 : Nat) = 0 then 0
        else ((([1].map (get_leaf_depth_sum wgB wlB)).sum : ℚ) / ((2 : Nat) : ℚ))) :=
  ⟨by decide, by decide,
    (C6_depth_stats wgB wlB [1] 2 (by decide) (by decide)).1 1 0 0 rfl,
    (C6_depth_stats wgB wlB [1] 2 (by decide) (by decide)).2.2.2.2.2.2⟩

theorem buildRulesLoop_cons (r s1 s2 : Nat) (ps : List (Nat × Nat))
    (g : List (Nat × GEntry)) (l : List (Nat × Nat)) :
    buildRulesLoop r ((s1, s2) :: ps) g l =
      match dget l s1, dget l s2 with
      | some n1, some n2 =>
        buildRulesLoop (r + 1) ps (g ++ [(r, GEntry.pair s1 s2)]) (l ++ [(r, n1 + n2)])
      | _, _ => Except.error "KeyError" := rfl

/-- The rule loop never reads the grammar dict, so a common prefix of the
grammar factors out. -/
theorem buildRulesLoop_factor :
    ∀ (ps : List (Nat × Nat)) (r : Nat) (g0 g : List (Nat × GEntry))
      (l : List (Nat × Nat)),
    buildRulesLoop r ps (g0 ++ g) l =
      match buildRulesLoop r ps g l with
      | .ok (G, L) => .ok (g0 ++ G, L)
      | .error e => .error e := by
  intro ps
  induction ps with
  | nil => intros; rfl
  | cons p ps ih =>
    intro r g0 g l
    obtain ⟨s1, s2⟩ := p
    rw [buildRulesLoop_cons, buildRulesLoop_cons]
    cases hd1 : dget l s1 with
    | none =>
      cases hd2 : dget l s2 with
      | none => rfl
      | some n2 => rfl
    | some n1 =>
      cases hd2 : dget l s2 with
      | none => rfl
      | some n2 =>
        rw [List.append_assoc]
        exact ih (r + 1) g0 (g ++ [(r, .pair s1 s2)]) (l ++ [(r, n1 + n2)])

/-- The rule loop adds only tuple entries, so bytes entries come from the
initial grammar. -/
theorem buildRulesLoop_bytes :
    ∀ (ps : List (Nat × Nat)) (r : Nat) (g G : List (Nat × GEntry))
      (l L : List (Nat × Nat)),
    buildRulesLoop r ps g l = .ok (G, L) →
    ∀ s b, dget G s = some (.bytes b) → dget g s = some (.bytes b) := by
  intro ps
  induction ps with
  | nil =>
    intro r g G l L h s b
    obtain ⟨rfl, rfl⟩ : g = G ∧ l = L := by
      cases h
      exact ⟨rfl, rfl⟩
    exact id
  | cons p ps ih =>
    intro r g G l L h s b hs
    obtain ⟨s1, s2⟩ := p
    revert h
    show (match dget l s1, dget l s2 with
      | some n1, some n2 =>
        buildRulesLoop (r + 1) ps (g ++ [(r, .pair s1 s2)]) (l ++ [(r, n1 + n2)])
      | _, _ => Except.error "KeyError") = Except.ok (G, L) → _
    cases hd1 : dget l s1 with
    | none =>
      cases hd2 : dget l s2 with
      | none => intro h; cases h
      | some n2 => intro h; cases h
    | some n1 =>
      cases hd2 : dget l s2 with
      | none => intro h; cases h
      | some n2 =>
        intro h
        have := ih (r + 1) _ G _ L h s b hs
        rw [dget_append_single] at this
        by_cases hrs : r = s
        · rw [if_pos hrs] at this
          cases this
        · rw [if_neg hrs] at this
          exact this

/-- The scan only looks at the pair view of the grammar. -/
theorem scanSeq_pview_congr {g g' : List (Nat × GEntry)} {l : List (Nat × Nat)}
    (h : ∀ t, pview g t = pview g' t) :
    ∀ (seq : List Nat) (pos : Nat), scanSeq g l seq pos = scanSeq g' l seq pos := by
  intro seq
  induction seq with
  | nil => intro pos; rfl
  | cons s rest ih =>
    intro pos
    rw [scanSeq_cons, scanSeq_cons]
    cases dget l s with
    | none => rfl
    | some symbol_len =>
      dsimp only
      by_cases hlt : pos < symbol_len
      · rw [if_pos hlt, if_pos hlt]
        have hs := h s
        cases hg : dget g s with
        | none =>
          cases hg' : dget g' s with
          | none => rfl
          | some e =>
            cases e with
            | bytes b => rfl
            | pair a b =>
              exfalso
              have hp : dget g s = some (.pair a b) :=
                pview_eq_some.mp (hs.trans (pview_eq_some.mpr hg'))
              rw [hg] at hp
              cases hp
        | some e =>
          cases e with
          | bytes b =>
            cases hg' : dget g' s with
            | none => rfl
            | some e' =>
              cases e' with
              | bytes b' => rfl
              | pair a' b' =>
                exfalso
                have hp : dget g s = some (.pair a' b') :=
                  pview_eq_some.mp (hs.trans (pview_eq_some.mpr hg'))
                rw [hg] at hp
                simp at hp
          | pair a b =>
            have hps : pview g s = some (a, b) := pview_eq_some.mpr hg
            have hg' : dget g' s = some (.pair a b) := pview_eq_some.mp (hs ▸ hps)
            rw [hg']
      · rw [if_neg hlt, if_neg hlt, ih]

/-- The descent loop only looks at the pair view of the grammar. -/
theorem raGo_pview_congr {g g' : List (Nat × GEntry)} {l : List (Nat × Nat)}
    (h : ∀ t, pview g t = pview g' t) :
    ∀ (fuel : Nat) (seq : List Nat) (pos : Nat),
    raGo g l fuel seq pos = raGo g' l fuel seq pos := by
  intro fuel
  induction fuel with
  | zero => intros; rfl
  | succ f ih =>
    intro seq pos
    rw [raGo_succ, raGo_succ, scanSeq_pview_congr h]
    cases scanSeq g' l seq pos with
    | ret t => rfl
    | keyErr => rfl
    | descend a b q => exact ih [a, b] q
    | fallthrough q => exact ih seq q

theorem load_original_mkFileA (alpha : Nat) (region : List Nat)
    (h : alpha < 4294967296) :
    load_original_repair_grammar_with_lengths (mkFileA alpha region) =
      buildRulesLoop alpha (parsePairs (region.take (region.length / 8 * 8)))
        (termEntriesA (List.range alpha) alpha) (termLens alpha) := by
  have h4 : (u32bytes alpha).length = 4 := rfl
  have htake4 : (u32bytes alpha ++ (List.range alpha ++ region)).take 4 = u32bytes alpha :=
    List.take_left' h4
  have hdrop4 : (u32bytes alpha ++ (List.range alpha ++ region)).drop 4 =
      List.range alpha ++ region :=
    List.drop_left' h4
  have hra : (List.range alpha).length = alpha := List.length_range alpha
  have htakea : (List.range alpha ++ region).take alpha = List.range alpha :=
    List.take_left' hra
  have hdropa : (List.range alpha ++ region).drop alpha = region :=
    List.drop_left' hra
  have hlen : (u32bytes alpha ++ (List.range alpha ++ region)).length =
      4 + (alpha + region.length) := by
    rw [List.length_append, List.length_append, h4, hra]
  unfold load_original_repair_grammar_with_lengths mkFileA
  simp only []
  rw [htake4, h4, u32of_u32bytes h, hdrop4, htakea, hra, hdropa, hlen]
  rw [if_neg (by omega), if_neg (by omega)]
  have harith : 4 + (alpha + region.length) - 4 - alpha = region.length := by omega
  rw [harith]
  rw [if_neg (by rw [List.length_take]; omega)]

theorem load_pfp_mkFileB (alpha : Nat) (region : List Nat)
    (h : alpha < 4294967296) :
    load_pfp_repair_grammar_with_lengths (mkFileB alpha region) =
      buildRulesLoop alpha (parsePairs (region.take (region.length / 8 * 8)))
        [] (termLens alpha) := by
  have h4 : (u32bytes alpha).length = 4 := rfl
  have htake4 : (u32bytes alpha ++ region).take 4 = u32bytes alpha :=
    List.take_left' h4
  have hdrop4 : (u32bytes alpha ++ region).drop 4 = region :=
    List.drop_left' h4
  have hlen : (u32bytes alpha ++ region).length = 4 + region.length := by
    rw [List.length_append, h4]
  unfold load_pfp_repair_grammar_with_lengths mkFileB
  simp only []
  rw [htake4, h4, u32of_u32bytes h, hdrop4, hlen]
  rw [if_neg (by omega)]
  have harith : 4 + region.length - 4 = region.length := by omega
  rw [harith]
  rw [if_neg (by rw [List.length_take]; omega)]

/-- C7: the same logical grammar encoded once under Layout A with the identity
character map and once under Layout B decodes identical terminal bytes at
identical positions: both engines return the same terminal id, it lies below
the alphabet, and the Layout A character map sends it to itself as a byte. -/
theorem C7_layout_equivalence (alpha : Nat) (region : List Nat)
    (gA : List (Nat × GEntry)) (lA : List (Nat × Nat))
    (gB : List (Nat × GEntry)) (lB : List (Nat × Nat))
    (seq : List Nat) (pos fuel : Nat)
    (halpha : alpha ≤ 256)
    (hA : load_original_repair_grammar_with_lengths (mkFileA alpha region) = .ok (gA, lA))
    (hB : load_pfp_repair_grammar_with_lengths (mkFileB alpha region) = .ok (gB, lB))
    (hseq : SeqCovered lB seq) (hpos : pos < uncompressedSize lB seq)
    (hfuel : maxList seq + 2 ≤ fuel) :
    lA = lB ∧ ∃ t, random_access seq gA lA pos fuel = .found t ∧
      random_access seq gB lB pos fuel = .found t ∧
      t < alpha ∧ dget gA t = some (.bytes t) := by
  have h32 : alpha < 4294967296 := by omega
  have hBorig := hB
  rw [load_original_mkFileA alpha region h32] at hA
  rw [load_pfp_mkFileB alpha region h32] at hB
  have hfact := buildRulesLoop_factor (parsePairs (region.take (region.length / 8 * 8)))
    alpha (termEntriesA (List.range alpha) alpha) [] (termLens alpha)
  rw [List.append_nil] at hfact
  rw [hfact, hB] at hA
  have h1 : (termEntriesA (List.range alpha) alpha ++ gB, lB) = (gA, lA) := by
    injection hA
  injection h1 with hg hl
  subst hg
  subst hl
  have hbytesB : ∀ s b, dget gB s = some (.bytes b) → False := by
    intro s b hsb
    have hinit := buildRulesLoop_bytes _ _ _ _ _ _ hB s b hsb
    cases hinit
  have hpv : ∀ t, pview (termEntriesA (List.range alpha) alpha ++ gB) t = pview gB t := by
    intro t
    unfold pview
    cases hgB : dget gB t with
    | some e => rw [dget_append_of_some hgB]
    | none =>
      rw [dget_append_of_none hgB, dget_termEntriesA]
      by_cases hlt : t < alpha
      · rw [if_pos hlt]
      · rw [if_neg hlt]
  have hfB : fileAlpha (mkFileB alpha region) = alpha := by
    unfold fileAlpha mkFileB
    rw [List.take_left' (show (u32bytes alpha).length = 4 from rfl), u32of_u32bytes h32]
  obtain ⟨rB, invB⟩ := load_pfp_inv hBorig
  rw [hfB] at invB
  have hw : WFdget gB := loadInv_wfdget invB
  have hpc := loadInv_pairClosed invB
  have hlen : ∀ s ∈ seq, LenExact gB lB s := fun s hs => invB.lexact s (hseq s hs)
  have hsz : uncompressedSize lB seq = (expandSeq gB seq).length :=
    uncompressedSize_eq_expandSeq_length hlen
  have hpos' : pos < (expandSeq gB seq).length := hsz ▸ hpos
  have hmem : (expandSeq gB seq).getD pos 0 ∈ expandSeq gB seq := by
    rw [List.getD_eq_getElem _ _ hpos']
    exact List.getElem_mem hpos'
  obtain ⟨s0, hs0seq, htmem⟩ := expandSeq_exists_mem hmem
  obtain ⟨hsome, hpvt⟩ := loadInv_expand_mem invB s0 (hseq s0 hs0seq) _ htmem
  obtain ⟨htlt, hlen1⟩ := loadInv_terminal invB hsome hpvt
  refine ⟨rfl, (expandSeq gB seq).getD pos 0, ?_, ?_, htlt, ?_⟩
  · show raGo (termEntriesA (List.range alpha) alpha ++ gB) lB fuel seq pos = _
    rw [raGo_pview_congr hpv fuel seq pos,
      raGo_spec hw hpc fuel seq pos hlen hpos' hfuel]
  · show raGo gB lB fuel seq pos = _
    rw [raGo_spec hw hpc fuel seq pos hlen hpos' hfuel]
  · have hgBt : dget gB ((expandSeq gB seq).getD pos 0) = none := by
      cases hgBt : dget gB ((expandSeq gB seq).getD pos 0) with
      | none => rfl
      | some e =>
        cases e with
        | bytes b => exact absurd hgBt (fun h => hbytesB _ b h)
        | pair a b =>
          exfalso
          rw [pview_eq_some.mpr hgBt] at hpvt
          cases hpvt
    rw [dget_append_of_none hgBt, dget_termEntriesA, if_pos htlt]
    have hrange : (List.range alpha).getD ((expandSeq gB seq).getD pos 0) 0 =
        (expandSeq gB seq).getD pos 0 := by
      rw [List.getD_eq_getElem _ _ (by simpa using htlt)]
      simp
    rw [hrange]

theorem C7_layout_equivalence_witness :
    (1 : Nat) ≤ 256 ∧
    load_original_repair_grammar_with_lengths (mkFileA 1 wregion) = .ok (wgA0, wlB) ∧
    load_pfp_repair_grammar_with_lengths (mkFileB 1 wregion) = .ok (wgB, wlB) ∧
    SeqCovered wlB [1] ∧ 1 < uncompressedSize wlB [1] ∧ maxList [1] + 2 ≤ 3 ∧
    (wlB = wlB ∧ ∃ t, random_access [1] wgA0 wlB 1 3 = .found t ∧
      random_access [1] wgB wlB 1 3 = .found t ∧
      t < 1 ∧ dget wgA0 t = some (.bytes t)) :=
  ⟨by decide, rfl, rfl, by decide, by decide, by decide,
    C7_layout_equivalence 1 wregion wgA0 wlB wgB wlB [1] 1 3 (by decide) rfl rfl
      (by decide) (by decide) (by decide)⟩

/-- C8 counterexample: on the Layout B grammar with alphabet size 2 and one
rule `2 -> (0, 1)`, the rule id 2 is below 256, so `format_pfp_repair_symbol`
formats it as the non-printable character `byte(2)` instead of the bare
decimal id the claim requires for a non-terminal. -/
theorem C8_counterexample :
    load_pfp_repair_grammar_with_lengths [2, 0, 0, 0, 0, 0, 0, 0, 1, 0, 0, 0] =
      .ok ([(2, GEntry.pair 0 1)], [(0, 1), (1, 1), (2, 2)]) ∧
    format_pfp_repair_symbol 2 [(2, GEntry.pair 0 1)] = .byteTag 2 ∧
    FormattedSymbol.byteTag 2 ≠ FormattedSymbol.bare 2 :=
  ⟨rfl, rfl, by decide⟩

/-- C8 amended: `format_original_repair_symbol` behaves as the claim states on
Layout A grammars (quoted printable terminal, `byte(id)` otherwise, bare id
for a stored rule, `?id?` for an absent id); `format_pfp_repair_symbol`
instead classifies purely by id value: every id below 256 is formatted as a
character (quoted when printable, `byte(id)` otherwise) even when it is a
rule id or absent, and only ids of 256 and above are formatted as the bare
decimal when they are stored rules and as `?id?` when absent. -/
theorem C8_formatting (fileA fileB : List Nat) (gA : List (Nat × GEntry))
    (lA : List (Nat × Nat)) (gB : List (Nat × GEntry)) (lB : List (Nat × Nat))
    (hA : load_original_repair_grammar_with_lengths fileA = .ok (gA, lA))
    (hB : load_pfp_repair_grammar_with_lengths fileB = .ok (gB, lB)) :
    (∀ s b, dget gA s = some (.bytes b) → format_original_repair_symbol s gA =
      if b < 128 ∧ pyIsPrintable b = true then .quoted b else .byteTag s) ∧
    (∀ s, (dget lA s).isSome = true → fileAlpha fileA ≤ s →
      format_original_repair_symbol s gA = .bare s) ∧
    (∀ s, dget gA s = none → format_original_repair_symbol s gA = .unknown s) ∧
    (∀ s, s < 256 → format_pfp_repair_symbol s gB =
      (if pyIsPrintable s = true then .quoted s else .byteTag s)) ∧
    (∀ s, 256 ≤ s → (dget lB s).isSome = true → fileAlpha fileB ≤ s →
      format_pfp_repair_symbol s gB = .bare s) ∧
    (∀ s, 256 ≤ s → dget gB s = none → format_pfp_repair_symbol s gB = .unknown s) := by
  obtain ⟨rA, invA⟩ := load_original_inv hA
  obtain ⟨rB, invB⟩ := load_pfp_inv hB
  refine ⟨?_, ?_, ?_, ?_, ?_, ?_⟩
  · intro s b hs
    unfold format_original_repair_symbol
    rw [hs]
    by_cases h1 : b < 128 <;> by_cases h2 : pyIsPrintable b = true <;>
      simp [h1, h2]
  · intro s hsome halpha
    obtain ⟨a, b, hab⟩ := invA.lrule s hsome halpha
    unfold format_original_repair_symbol
    rw [hab]
  · intro s hs
    unfold format_original_repair_symbol
    rw [hs]
  · intro s hlt
    unfold format_pfp_repair_symbol
    rw [if_pos hlt]
  · intro s hge hsome halpha
    obtain ⟨a, b, hab⟩ := invB.lrule s hsome halpha
    unfold format_pfp_repair_symbol
    rw [if_neg (by omega), hab]
  · intro s hge hs
    unfold format_pfp_repair_symbol
    rw [if_neg (by omega), hs]

theorem C8_formatting_witness :
    load_original_repair_grammar_with_lengths wfileA = .ok (wgA, wlA) ∧
    load_pfp_repair_grammar_with_lengths wfileB = .ok (wgB, wlB) ∧
    format_original_repair_symbol 0 wgA =
      (if (97 : Nat) < 128 ∧ pyIsPrintable 97 = true
        then FormattedSymbol.quoted 97 else FormattedSymbol.byteTag 0) :=
  ⟨rfl, rfl,
    (C8_formatting wfileA wfileB wgA wlA wgB wlB rfl rfl).1 0 97 rfl⟩
